import Mathlib

/-!
Huffman compression: `util.h` and `hashmap.cpp`.

A shallow embedding of the frequency counter, the tree builder, the code-table
deriver, the encoder, the decoder and the header (de)serialiser, together with the
integer-keyed `hashmap` they rest on.

Conventions of the embedding.

* A C++ `int` is a Lean `Int`; the places where the code relies on 32-bit
  wrap-around (`hashFunction`) reduce modulo `2^32` explicitly, and so do the sums
  stored in an `int`: the occurrence counters, the counts of the tree nodes and the
  bit count `size`.
* A call that does not return normally (a thrown exception, undefined behaviour,
  a loop that is never left) yields `Except.error` with the `Fault` describing it.
* A `HuffmanNode*` is a value of the inductive type `HuffmanNode`, `nil` being
  `nullptr`.
* `std::priority_queue` is not part of the repository: the tree builder is
  parametrised by a `PriorityQueue` and the theorems hold for every queue that obeys
  the laws of a priority queue (`PriorityQueue.Lawful`).
-/

namespace Huffman

/-! ## Faults -/

/-- The ways in which a call fails to return normally. -/
inductive Fault
  /-- `hashmap::get` throws the string "Error: Key is not in map." -/
  | keyNotInMap
  /-- `std::map::at` throws `std::out_of_range`. -/
  | outOfRange
  /-- A bucket index outside `0 .. nBuckets-1` is used (undefined behaviour). -/
  | badBucket
  /-- A null pointer is dereferenced (undefined behaviour). -/
  | nullPointer
  /-- The call `top()` is made on an empty priority queue (undefined behaviour). -/
  | emptyQueue
  /-- A character buffer of 1000 chars is overrun (undefined behaviour). -/
  | bufferOverrun
  /-- A loop is entered that is never left. -/
  | endlessLoop
  /-- The step budget given to a fuelled loop is used up. -/
  | outOfFuel
  deriving DecidableEq, Repr

/-- Equality of results is decidable, so that results can be compared by evaluation. -/
instance instDecidableEqExcept {ε α : Type} [DecidableEq ε] [DecidableEq α] :
    DecidableEq (Except ε α) := fun a b =>
  match a, b with
  | .ok x, .ok y =>
      if h : x = y then isTrue (congrArg Except.ok h)
      else isFalse (fun h1 => h (Except.ok.inj h1))
  | .error x, .error y =>
      if h : x = y then isTrue (congrArg Except.error h)
      else isFalse (fun h1 => h (Except.error.inj h1))
  | .ok _, .error _ => isFalse (fun h => Except.noConfusion h)
  | .error _, .ok _ => isFalse (fun h => Except.noConfusion h)

/-! ## 32-bit integers -/

/-- The bit pattern of an `int` read as an `unsigned int`. -/
def toUInt32 (i : Int) : Nat := (i % 4294967296).toNat

/-- The `int` with the same bit pattern as an `unsigned int`. -/
def toInt32 (n : Nat) : Int :=
  if n % 4294967296 < 2147483648 then ((n % 4294967296 : Nat) : Int)
  else ((n % 4294967296 : Nat) : Int) - 4294967296

/-- An integer reduced to the range of `int` (wrap-around modulo `2^32`). -/
def wrapInt32 (i : Int) : Int := toInt32 (toUInt32 i)

/-- The values an `int` can hold. -/
def IsInt32 (i : Int) : Prop := -2147483648 ≤ i ∧ i ≤ 2147483647

instance (i : Int) : Decidable (IsInt32 i) := by unfold IsInt32; infer_instance

/-! ## hashmap.cpp -/

/-- One bucket: the linked list of `key_val_pair`s, front first. -/
abbrev Chain := List (Int × Int)

/-- The class `hashmap`: bucket count, element count and the bucket array. -/
structure hashmap where
  nBuckets : Int
  nElems : Int
  buckets : List Chain
  deriving DecidableEq, Repr

/-- `hashmap::createBucketArray`: `nBuckets` empty lists. -/
def createBucketArray (nBuckets : Int) : List Chain := List.replicate nBuckets.toNat []

/-- The constructor `hashmap::hashmap()`. -/
def hashmap.ctor : hashmap :=
  { nBuckets := 10, nElems := 0, buckets := createBucketArray 10 }

/-- `hashmap::hashFunction`.  `(input >> 16) ^ input` is computed on the bit patterns,
the product and the second mixing step are `unsigned` (modulo `2^32`), the result is
converted back to `int`, and `hash *= -1` wraps. -/
def hashFunction (input : Int) : Int :=
  let temp : Nat := ((toUInt32 (input >>> 16) ^^^ toUInt32 input) * 0x45d9f3b) % 4294967296
  let temp : Nat := (temp >>> 16) ^^^ temp
  let hash : Int := toInt32 temp
  if hash < 0 then wrapInt32 (hash * -1) else hash

/-- The expression `hashFunction(key) % nBuckets` (`%` truncates towards zero). -/
def hashmap.choice (m : hashmap) (key : Int) : Int := Int.tmod (hashFunction key) m.nBuckets

/-- The read `buckets[choice]`. -/
def hashmap.bucket (m : hashmap) (choice : Int) : Except Fault Chain :=
  if 0 ≤ choice then
    match m.buckets.get? choice.toNat with
    | some c => .ok c
    | none => .error .badBucket
  else .error .badBucket

/-- The list walk of `put`: overwrite the value of the node holding `key`, or append a
new node at the end.  The flag tells whether a node was appended. -/
def chainPut (key value : Int) : Chain → Chain × Bool
  | [] => ([(key, value)], true)
  | (k, v) :: rest =>
      if k = key then ((k, value) :: rest, false)
      else ((k, v) :: (chainPut key value rest).1, (chainPut key value rest).2)

/-- `hashmap::put`. -/
def hashmap.put (m : hashmap) (key value : Int) : Except Fault hashmap :=
  match m.bucket (m.choice key) with
  | .error e => .error e
  | .ok chain =>
      .ok { m with
            buckets := m.buckets.set (m.choice key).toNat (chainPut key value chain).1
            nElems := if (chainPut key value chain).2 then m.nElems + 1 else m.nElems }

/-- The list walk of `get`. -/
def chainGet (key : Int) : Chain → Option Int
  | [] => none
  | (k, v) :: rest => if k = key then some v else chainGet key rest

/-- `hashmap::get`. -/
def hashmap.get (m : hashmap) (key : Int) : Except Fault Int :=
  match m.bucket (m.choice key) with
  | .error e => .error e
  | .ok chain =>
      match chainGet key chain with
      | some v => .ok v
      | none => .error .keyNotInMap

/-- `hashmap::containsKey`. -/
def hashmap.containsKey (m : hashmap) (key : Int) : Except Fault Bool :=
  match m.bucket (m.choice key) with
  | .error e => .error e
  | .ok chain => .ok (chainGet key chain).isSome

/-- `hashmap::keys`: the keys of bucket 0, then of bucket 1, and so on, each bucket
front to back. -/
def hashmap.keys (m : hashmap) : List Int :=
  ((m.buckets.take m.nBuckets.toNat).map (fun c => c.map Prod.fst)).flatten

/-- `hashmap::size`. -/
def hashmap.size (m : hashmap) : Int := m.nElems

/-! ## Symbols -/

/-- Modelled from the spec: the sentinel `PSEUDO_EOF`, declared in `bitstream.h`, which
is not among the sources.  The spec makes it a symbol distinct from the byte values
0–255 and from `NOT_A_CHAR`; 256 is the first integer after the byte values. -/
def PSEUDO_EOF : Int := 256

/-- Modelled from the spec: the marker `NOT_A_CHAR`, declared in `bitstream.h`, which is
not among the sources.  The spec makes it a symbol distinct from the byte values and
from `PSEUDO_EOF`, carried by internal nodes only. -/
def NOT_A_CHAR : Int := 257

/-- A byte of a file or of a string. -/
abbrev Byte := Fin 256

/-- The conversion `int charCode = c` of a `char` holding the byte `b`.  Whether `char`
is signed is implementation-defined: `signedChar` chooses. -/
def charCode (signedChar : Bool) (b : Byte) : Int :=
  if signedChar && decide (128 ≤ b.val) then (b.val : Int) - 256 else (b.val : Int)

/-- The conversion of an `int` to `char`, as in `result += character`. -/
def toByte (i : Int) : Byte := ⟨(i % 256).toNat, by omega⟩

/-! ## util.h: the frequency counter -/

/-- The body of the loops of `buildFrequencyMap`, for one character.  The sum
`map.get(charCode) + 1` is an `int`, taken with 32-bit wrap-around. -/
def countChar (signedChar : Bool) (map : hashmap) (c : Byte) : Except Fault hashmap :=
  match map.containsKey (charCode signedChar c) with
  | .error e => .error e
  | .ok true =>
      match map.get (charCode signedChar c) with
      | .error e => .error e
      | .ok v => map.put (charCode signedChar c) (wrapInt32 (v + 1))
  | .ok false => map.put (charCode signedChar c) 1

/-- The loop of `buildFrequencyMap` over the characters read. -/
def countChars (signedChar : Bool) : List Byte → hashmap → Except Fault hashmap
  | [], map => .ok map
  | c :: rest, map =>
      match countChar signedChar map c with
      | .error e => .error e
      | .ok map1 => countChars signedChar rest map1

/-- `buildFrequencyMap`: `input` is the content of the file, or the string itself
(both branches run the same loop body). -/
def buildFrequencyMap (signedChar : Bool) (input : List Byte) (map : hashmap) :
    Except Fault hashmap :=
  match countChars signedChar input map with
  | .error e => .error e
  | .ok map1 => map1.put PSEUDO_EOF 1

/-! ## util.h: the encoding tree -/

/-- A `HuffmanNode*`: `nil` is `nullptr`, `node` points to a
`HuffmanNode{character, count, zero, one}`. -/
inductive HuffmanNode
  | nil
  | node (character count : Int) (zero one : HuffmanNode)
  deriving DecidableEq, Repr

/-- The field `count` of the node pointed to (the queue only ever holds pointers to
nodes; `0` stands in for the read through `nullptr`). -/
def HuffmanNode.count : HuffmanNode → Int
  | .nil => 0
  | .node _ n _ _ => n

/-- The test `zero == nullptr && one == nullptr` on the node pointed to. -/
def HuffmanNode.isLeaf : HuffmanNode → Bool
  | .node _ _ .nil .nil => true
  | _ => false

/-- `compareNodes::operator()`. -/
def compareNodes (lhs rhs : HuffmanNode) : Bool := decide (lhs.count > rhs.count)

/-- The interface of `std::priority_queue<HuffmanNode*, vector<HuffmanNode*>,
compareNodes>` used by the tree builder.  `Q` is the type of queue states and `items`
the content of the underlying vector. -/
structure PriorityQueue where
  Q : Type
  empty : Q
  push : Q → HuffmanNode → Q
  top : Q → Option HuffmanNode
  pop : Q → Q
  size : Q → Nat
  items : Q → List HuffmanNode

/-- The laws of a priority queue ordered by `compareNodes`: `push` adds an element,
`top` is an element that no other element precedes (a node of least `count`, any one of
them when several have the least count), and `pop` removes that element. -/
structure PriorityQueue.Lawful (P : PriorityQueue) : Prop where
  items_empty : P.items P.empty = []
  items_push : ∀ q x, (P.items (P.push q x)).Perm (x :: P.items q)
  size_eq : ∀ q, P.size q = (P.items q).length
  top_none : ∀ q, P.items q = [] → P.top q = none
  top_min : ∀ q, P.items q ≠ [] → ∃ x, P.top q = some x ∧ x ∈ P.items q ∧
    (∀ y ∈ P.items q, compareNodes x y = false) ∧
    (P.items (P.pop q)).Perm ((P.items q).erase x)

/-- The first loop of `buildEncodingTree`: one leaf per key, pushed in the order of
`keys()`. -/
def pushLeaves (P : PriorityQueue) (map : hashmap) : List Int → P.Q → Except Fault P.Q
  | [], pq => .ok pq
  | key :: rest, pq =>
      match map.get key with
      | .error e => .error e
      | .ok v => pushLeaves P map rest (P.push pq (.node key v .nil .nil))

/-- The loop `while (pq.size() > 1)` of `buildEncodingTree`, run for at most `fuel`
rounds.  The sum `left->count + right->count` is an `int`, taken with 32-bit
wrap-around. -/
def mergeLoop (P : PriorityQueue) : Nat → P.Q → Except Fault P.Q
  | 0, pq => if P.size pq > 1 then .error .outOfFuel else .ok pq
  | fuel + 1, pq =>
      if P.size pq > 1 then
        match P.top pq, P.top (P.pop pq) with
        | some (.node lch lc lz lo), some (.node rch rc rz ro) =>
            mergeLoop P fuel
              (P.push (P.pop (P.pop pq))
                (.node NOT_A_CHAR (wrapInt32 (lc + rc))
                  (.node lch lc lz lo) (.node rch rc rz ro)))
        | some .nil, _ => .error .nullPointer
        | some (.node _ _ _ _), some .nil => .error .nullPointer
        | _, _ => .error .emptyQueue
      else .ok pq

/-- `buildEncodingTree`.  Every round of the loop removes one node from the queue, so
`pq.size()` rounds are enough. -/
def buildEncodingTree (P : PriorityQueue) (map : hashmap) : Except Fault HuffmanNode :=
  match pushLeaves P map map.keys P.empty with
  | .error e => .error e
  | .ok pq =>
      match mergeLoop P (P.size pq) pq with
      | .error e => .error e
      | .ok pq1 =>
          match P.top pq1 with
          | none => .error .emptyQueue
          | some tree => .ok tree

/-! ## util.h: the code table -/

/-- A `std::map<int,string>`: a finite partial function from symbols to strings. -/
abbrev CodeMap := Int → Option (List Char)

/-- The empty `std::map`. -/
def CodeMap.empty : CodeMap := fun _ => none

/-- The assignment `encodingMap[key] = path`. -/
def CodeMap.assign (em : CodeMap) (key : Int) (path : List Char) : CodeMap :=
  fun k => if k = key then some path else em k

/-- `buildEncodingMapHelper`. -/
def buildEncodingMapHelper : HuffmanNode → CodeMap → List Char → CodeMap
  | .nil, encodingMap, _ => encodingMap
  | .node character _ zero one, encodingMap, path =>
      if zero = .nil ∧ one = .nil then encodingMap.assign character path
      else
        buildEncodingMapHelper one
          (buildEncodingMapHelper zero encodingMap (path ++ ['0'])) (path ++ ['1'])

/-- `buildEncodingMap`. -/
def buildEncodingMap (tree : HuffmanNode) : CodeMap :=
  if tree ≠ .nil then buildEncodingMapHelper tree CodeMap.empty [] else CodeMap.empty

/-! ## util.h: the encoder -/

/-- The loop `while (input.get(c)) encodedString += encodingMap.at(c)`. -/
def encodeChars (signedChar : Bool) (encodingMap : CodeMap) :
    List Byte → List Char → Except Fault (List Char)
  | [], encodedString => .ok encodedString
  | c :: rest, encodedString =>
      match encodingMap (charCode signedChar c) with
      | none => .error .outOfRange
      | some code => encodeChars signedChar encodingMap rest (encodedString ++ code)

/-- The argument `bit - '0'` of `writeBit`. -/
def bitOfChar (bit : Char) : Int := (bit.toNat : Int) - 48

/-- What `encode` leaves behind: the returned string, the value stored in `size` (the
length of the string converted to `int`) and the bits passed to `output.writeBit`, in
order. -/
structure Encoded where
  encodedString : List Char
  size : Int
  written : List Int
  deriving DecidableEq, Repr

/-- `encode`, on the bytes of the input stream. -/
def encode (signedChar : Bool) (input : List Byte) (encodingMap : CodeMap)
    (makeFile : Bool) : Except Fault Encoded :=
  match encodeChars signedChar encodingMap input [] with
  | .error e => .error e
  | .ok body =>
      match encodingMap PSEUDO_EOF with
      | none => .error .outOfRange
      | some code =>
          .ok { encodedString := body ++ code
                size := wrapInt32 ((body ++ code).length : Int)
                written := if makeFile then (body ++ code).map bitOfChar else [] }

/-! ## util.h: the decoder -/

/-- Modelled from the spec: `readBit` of the bit-stream collaborator (`bitstream.h` is
not among the sources).  It hands out the bits of the source in order; `eofBit` is the
value it returns once the source is exhausted. -/
def readBit (eofBit : Int) : List Int → Int × List Int
  | [] => (eofBit, [])
  | bit :: rest => (bit, rest)

/-- The loop `while (true)` of `decode`, run for at most `fuel` rounds.  The bytes put
to `output` are those appended to `result`. -/
def decodeLoop (eofBit : Int) (encodingTree : HuffmanNode) :
    Nat → List Int → HuffmanNode → List Byte → Except Fault (List Byte)
  | 0, _, _, _ => .error .outOfFuel
  | fuel + 1, input, currNode, result =>
      match currNode with
      | .nil => .error .nullPointer
      | .node _ _ zero one =>
          match (if (readBit eofBit input).1 = 0 then zero else one) with
          | .nil => .error .nullPointer
          | .node character count z o =>
              if z = .nil ∧ o = .nil then
                if character = PSEUDO_EOF then .ok result
                else
                  decodeLoop eofBit encodingTree fuel (readBit eofBit input).2 encodingTree
                    (result ++ [toByte character])
              else
                decodeLoop eofBit encodingTree fuel (readBit eofBit input).2
                  (.node character count z o) result

/-- `decode`, given `fuel` rounds of its loop. -/
def decode (eofBit : Int) (fuel : Nat) (input : List Int) (encodingTree : HuffmanNode) :
    Except Fault (List Byte) :=
  decodeLoop eofBit encodingTree fuel input encodingTree []

/-! ## hashmap.cpp: the stream operators -/

/-- The character of a decimal digit. -/
def digitChar (d : Nat) : Char := Char.ofNat (48 + d)

/-- The decimal digits of `n`, most significant first (`fuel` bounds the number of
digits). -/
def natDigits : Nat → Nat → List Char
  | 0, _ => []
  | fuel + 1, n =>
      if n < 10 then [digitChar n] else natDigits fuel (n / 10) ++ [digitChar (n % 10)]

/-- The text written by `out << i` for an `int`. -/
def intToText (i : Int) : List Char :=
  if i < 0 then '-' :: natDigits (i.natAbs + 1) i.natAbs else natDigits (i.natAbs + 1) i.natAbs

/-- The loop of `operator<<` from index `i` on: `key:value`, followed by `", "` unless
the key is the last one. -/
def writeEntries (myMap : hashmap) : List Int → Except Fault (List Char)
  | [] => .ok []
  | key :: rest =>
      match myMap.get key with
      | .error e => .error e
      | .ok value =>
          match writeEntries myMap rest with
          | .error e => .error e
          | .ok text =>
              .ok (intToText key ++ [':'] ++ intToText value ++
                    (if rest = [] then [] else [',', ' ']) ++ text)

/-- `operator<<`: the text appended to `out`. -/
def operatorLtLt (myMap : hashmap) : Except Fault (List Char) :=
  match writeEntries myMap myMap.keys with
  | .error e => .error e
  | .ok text => .ok (['{'] ++ text ++ ['}'])

/-- The test `isspace` of the C locale. -/
def isSpace (c : Char) : Bool :=
  c = ' ' || c = '\t' || c = '\n' || c = '\x0b' || c = '\x0c' || c = '\r'

/-- The digits read by `atoi`, up to the first character that is no digit. -/
def atoiDigits (acc : Nat) : List Char → Nat
  | [] => acc
  | c :: rest =>
      if 48 ≤ c.toNat ∧ c.toNat ≤ 57 then atoiDigits (acc * 10 + (c.toNat - 48)) rest
      else acc

/-- The part of `atoi` after the white space: an optional sign, then digits. -/
def atoiSigned : List Char → Int
  | [] => 0
  | c :: rest =>
      if c = '-' then wrapInt32 (-(atoiDigits 0 rest : Int))
      else if c = '+' then wrapInt32 (atoiDigits 0 rest : Int)
      else wrapInt32 (atoiDigits 0 (c :: rest) : Int)

/-- The library function `atoi` on the characters of a C string: leading white space is
skipped, reading stops at the first character that is not part of the number (so the
terminating NUL of the buffer plays no part), and the value is reduced to an `int`. -/
def atoi (s : List Char) : Int := atoiSigned (s.dropWhile isSpace)

/-- `string::find(":")`: the position of the first colon, `none` for `npos`. -/
def findColon (s : List Char) : Option Nat :=
  if ':' ∈ s then some (s.indexOf ':') else none

/-- `string::substr(pos, count)` for `pos` within the string. -/
def substr (s : List Char) (pos count : Nat) : List Char := (s.drop pos).take count

/-- The block `if (nextInput != "") { ... }` of `operator>>`.  With no colon `pos` is
`npos`: `substr(0, npos)` is the whole string and `pos+1` wraps to `0`.  The two
buffers hold 1000 chars each and `atoi` needs a terminating NUL within them. -/
def putEntry (nextInput : List Char) (myMap : hashmap) : Except Fault hashmap :=
  if nextInput = [] then .ok myMap
  else
    let str1 := match findColon nextInput with
      | some pos => substr nextInput 0 pos
      | none => nextInput
    let str2 := match findColon nextInput with
      | some pos => substr nextInput (pos + 1) (nextInput.length - 1)
      | none => substr nextInput 0 (nextInput.length - 1)
    if 1000 ≤ str1.length ∨ 1000 ≤ str2.length then .error .bufferOverrun
    else myMap.put (atoi str1) (atoi str2)

/-- The loop `while (!done)` of `operator>>`, one character of the stream at a time.
`skip` is set right after a comma, when the next character is read and dropped;
`nextInput` is the entry collected so far.  On an exhausted stream `in.get()` keeps
returning `EOF`, which is neither `','` nor `'}'`: the inner loop is never left.
The result is the map together with the rest of the stream. -/
def extractLoop : List Char → Bool → List Char → hashmap →
    Except Fault (hashmap × List Char)
  | [], _, _, _ => .error .endlessLoop
  | _ :: rest, true, _, myMap => extractLoop rest false [] myMap
  | nextChar :: rest, false, nextInput, myMap =>
      if nextChar = ',' then
        match putEntry nextInput myMap with
        | .error e => .error e
        | .ok map1 => extractLoop rest true [] map1
      else if nextChar = '}' then
        match putEntry nextInput myMap with
        | .error e => .error e
        | .ok map1 => .ok (map1, rest)
      else extractLoop rest false (nextInput ++ [nextChar]) myMap

/-- `operator>>`: the first character is read and dropped, then the entries are
parsed. -/
def operatorGtGt (input : List Char) (myMap : hashmap) : Except Fault (hashmap × List Char) :=
  extractLoop input.tail false [] myMap

/-! ## A priority queue to run the builder with -/

/-- The first node of least `count` in a list, given the best node so far. -/
def leastFrom (best : HuffmanNode) : List HuffmanNode → HuffmanNode
  | [] => best
  | x :: rest => if compareNodes best x then leastFrom x rest else leastFrom best rest

/-- The first node of least `count` in a list. -/
def least : List HuffmanNode → Option HuffmanNode
  | [] => none
  | x :: rest => some (leastFrom x rest)

/-- A priority queue kept as the list of its elements in the order of insertion; among
nodes of equal count the one inserted first comes out first. -/
def listQueue : PriorityQueue where
  Q := List HuffmanNode
  empty := []
  push q x := q ++ [x]
  top q := least q
  pop q := match least q with
    | none => q
    | some x => q.erase x
  size q := q.length
  items q := q

/-! ## Reachable maps and their invariant -/

/-- The maps a program can hold: a default-constructed map after any number of calls
of `put` that returned. -/
inductive Reachable : hashmap → Prop
  | ctor : Reachable hashmap.ctor
  | put {m m1 : hashmap} {key value : Int} :
      Reachable m → m.put key value = .ok m1 → Reachable m1

/-- The bucket of a key in a map of ten buckets, as a list position. -/
def slot (key : Int) : Nat := (Int.tmod (hashFunction key) 10).toNat

/-- The key/value pairs of a map, bucket after bucket (the order of `keys()`). -/
def hashmap.entries (m : hashmap) : List (Int × Int) :=
  (m.buckets.take m.nBuckets.toNat).flatten

/-- All keys and values of the map are within the range of `int`. -/
def hashmap.Int32 (m : hashmap) : Prop := ∀ e ∈ m.entries, IsInt32 e.1 ∧ IsInt32 e.2

instance (m : hashmap) : Decidable m.Int32 := by unfold hashmap.Int32; infer_instance

/-- The value stored for a key, if any: the result of walking the key's bucket. -/
def hashmap.lookup (m : hashmap) (key : Int) : Option Int :=
  chainGet key (m.buckets.getD (slot key) [])

/-- The representation invariant of `hashmap`: ten buckets, every pair in the bucket
its key hashes to, no key twice in a bucket, `nElems` the number of pairs. -/
structure hashmap.WF (m : hashmap) : Prop where
  nBuckets_eq : m.nBuckets = 10
  length_eq : m.buckets.length = 10
  home : ∀ (i : Nat) (c : Chain), m.buckets[i]? = some c →
    ∀ e ∈ c, Int.tmod (hashFunction e.1) 10 = (i : Int)
  nodup : ∀ (i : Nat) (c : Chain), m.buckets[i]? = some c → (c.map Prod.fst).Nodup
  nElems_eq : m.nElems = (m.buckets.flatten.length : Int)

/-- A key whose bucket index `hashFunction(key) % 10` is not negative, so that it
designates one of the ten buckets. -/
def ValidKey (key : Int) : Prop := 0 ≤ Int.tmod (hashFunction key) 10

instance (key : Int) : Decidable (ValidKey key) := by unfold ValidKey; infer_instance

/-! ## Trees: leaves, fullness, root-to-leaf paths -/

/-- The pairs `(character, count)` of the leaves of a tree, from the zero-most leaf to
the one-most leaf.  A leaf is a node whose two children are null. -/
def leaves : HuffmanNode → List (Int × Int)
  | .nil => []
  | .node character count zero one =>
      if zero = .nil ∧ one = .nil then [(character, count)] else leaves zero ++ leaves one

/-- The tree is full: it is not null and each of its nodes has two children or none. -/
def HuffmanNode.full : HuffmanNode → Bool
  | .nil => false
  | .node _ _ zero one =>
      if zero = .nil ∧ one = .nil then true else zero.full && one.full

/-- The pairs `(character, path)` of the leaves of a tree, where the path is the string
of the steps from the root: `'0'` into `zero`, `'1'` into `one`. -/
def codes : HuffmanNode → List (Int × List Char)
  | .nil => []
  | .node character _ zero one =>
      if zero = .nil ∧ one = .nil then [(character, [])]
      else (codes zero).map (fun e => (e.1, '0' :: e.2)) ++
           (codes one).map (fun e => (e.1, '1' :: e.2))

/-- The leaf node built by the first loop of `buildEncodingTree` for one map entry. -/
def leafNode (e : Int × Int) : HuffmanNode := .node e.1 e.2 .nil .nil

/-- The runs of the loop of `buildEncodingTree` as seen on the content of the queue:
`Merges F T` holds when the loop, started with the nodes `F` in the queue, can end with
`T` as the only node left.  In each round `x` is a node of least count, `y` a node of
least count among the others, and the two are replaced by their parent, whose count is
the `int` sum of theirs. -/
inductive Merges : List HuffmanNode → HuffmanNode → Prop
  | done (t : HuffmanNode) : Merges [t] t
  | step (F rest : List HuffmanNode) (x y T : HuffmanNode) :
      F.Perm (x :: y :: rest) →
      (∀ z ∈ F, x.count ≤ z.count) →
      (∀ z ∈ y :: rest, y.count ≤ z.count) →
      Merges (.node NOT_A_CHAR (wrapInt32 (x.count + y.count)) x y :: rest) T →
      Merges F T

/-! ## Sample data -/

/-- The bytes of the string `"aabbbc"`. -/
def sampleInput : List Byte := [97, 97, 98, 98, 98, 99]

/-- The frequency map of `"aabbbc"`: `{97:2, 98:3, 256:1, 99:1}` in the order of
`keys()`. -/
def sampleMap : hashmap :=
  { nBuckets := 10, nElems := 4,
    buckets := [[], [], [(97, 2), (98, 3)], [(256, 1)], [], [], [], [], [], [(99, 1)]] }

/-- The tree built from `sampleMap` by `listQueue`. -/
def sampleTree : HuffmanNode :=
  .node 257 7 (.node 98 3 .nil .nil)
    (.node 257 4 (.node 97 2 .nil .nil)
      (.node 257 2 (.node 256 1 .nil .nil) (.node 99 1 .nil .nil)))

/-- The code table of `sampleTree`: `b ↦ 0`, `a ↦ 10`, `PSEUDO_EOF ↦ 110`,
`c ↦ 111`. -/
def sampleCodes : CodeMap := buildEncodingMap sampleTree

/-- The frequency map of the string `"a"`: `{97:1, 256:1}`. -/
def smallMap : hashmap :=
  { nBuckets := 10, nElems := 2,
    buckets := [[], [], [(97, 1)], [(256, 1)], [], [], [], [], [], []] }

/-- The tree built from `smallMap` by `listQueue`: `a` on the zero-branch, `PSEUDO_EOF`
on the one-branch. -/
def smallTree : HuffmanNode :=
  .node 257 2 (.node 97 1 .nil .nil) (.node 256 1 .nil .nil)

/-! ## Auxiliary notions for the stream operators -/

/-- The calls `put(key, value)` for the pairs of a list, in order. -/
def putAll : List (Int × Int) → hashmap → Except Fault hashmap
  | [], m => .ok m
  | e :: rest, m =>
      match m.put e.1 e.2 with
      | .error x => .error x
      | .ok m1 => putAll rest m1

/-- The text `key:value` of one pair. -/
def entryText (e : Int × Int) : List Char := intToText e.1 ++ [':'] ++ intToText e.2

/-- The text between the braces for a list of pairs: the pairs separated by `", "`. -/
def entriesText : List (Int × Int) → List Char
  | [] => []
  | e :: rest => entryText e ++ (if rest = [] then [] else [',', ' ']) ++ entriesText rest

/-! ## Cuts of a tree -/

/-- `Cover t d L A`: the subtrees listed in `L`, each with its depth, form a cut of the
tree `t` whose root lies at depth `d`: every root-to-leaf path of `t` meets exactly one
of them.  `A` lists count and depth of the nodes above the cut; each of them has two
children and carries the sum of their counts. -/
inductive Cover : HuffmanNode → Nat → List (HuffmanNode × Nat) → List (Int × Nat) → Prop
  | item (t : HuffmanNode) (d : Nat) : Cover t d [(t, d)] []
  | inner (c n : Int) (z o : HuffmanNode) (d : Nat) (Lz Lo : List (HuffmanNode × Nat))
      (Az Ao : List (Int × Nat)) :
      z ≠ .nil → o ≠ .nil → n = z.count + o.count →
      Cover z (d + 1) Lz Az → Cover o (d + 1) Lo Ao →
      Cover (.node c n z o) d (Lz ++ Lo) ((n, d) :: (Az ++ Ao))

/-- Count and depth of the nodes on and above a cut. -/
def cutNodes (L : List (HuffmanNode × Nat)) (A : List (Int × Nat)) : List (Int × Nat) :=
  L.map (fun e => (e.1.count, e.2)) ++ A

/-- No node lies deeper than a node of smaller count. -/
def LevelOrdered (N : List (Int × Nat)) : Prop :=
  ∀ u ∈ N, ∀ v ∈ N, u.2 < v.2 → v.1 ≤ u.1

/-! ## Exceptions and undefined behaviour -/

/-- The fault is an exception, which the caller can catch and which reports an error;
the other faults are undefined behaviour or a call that does not come back. -/
def Fault.isException : Fault → Bool
  | .keyNotInMap => true
  | .outOfRange => true
  | _ => false

/-! ## The empty input -/

/-- The frequency map of the empty input: `{256:1}`. -/
def emptyInputMap : hashmap :=
  { nBuckets := 10, nElems := 1,
    buckets := [[], [], [], [(256, 1)], [], [], [], [], [], []] }

/-- The tree of the empty input: the leaf of `PSEUDO_EOF`. -/
def emptyInputTree : HuffmanNode := .node 256 1 .nil .nil

/-! ## All outcomes of the merge loop -/

/-- No node of the list has a smaller count than `x`. -/
def isLeast (x : HuffmanNode) (F : List HuffmanNode) : Bool :=
  F.all (fun z => decide (x.count ≤ z.count))

/-- The trees the loop of `buildEncodingTree` can end with when the queue holds the
nodes `F`, over all the choices a priority queue has among nodes of equal count:
`x` ranges over the nodes of least count, `y` over the nodes of least count among the
others.  `fuel` bounds the number of rounds. -/
def mergeResults : Nat → List HuffmanNode → List HuffmanNode
  | 0, F => if F.length = 1 then F else []
  | fuel + 1, F =>
      if F.length = 1 then F
      else
        ((F.filter (fun x => isLeast x F)).map (fun x =>
          (((F.erase x).filter (fun y => isLeast y (F.erase x))).map (fun y =>
            mergeResults fuel
              (.node NOT_A_CHAR (wrapInt32 (x.count + y.count)) x y ::
                (F.erase x).erase y))).flatten)).flatten

/-! ## Counts whose sum exceeds the range of `int` -/

/-- A frequency map of six keys whose counts are within the range of `int` while the
sum of the counts of keys 3 and 4 is `2^31`:
`{1:1073741814, 5:1073741825, 4:1073741824, 2:1073741814, 3:1073741824, 6:1073741826}`
in the order of `keys()`. -/
def wideMap : hashmap :=
  { nBuckets := 10, nElems := 6,
    buckets := [[], [], [], [], [(1, 1073741814)], [(5, 1073741825)], [], [],
      [(4, 1073741824)], [(2, 1073741814), (3, 1073741824), (6, 1073741826)]] }

/-! # Theorems -/

/-! ## 32-bit integers -/

theorem wrapInt32_of_isInt32 (i : Int) (h : IsInt32 i) : wrapInt32 i = i := by
  unfold IsInt32 at h
  unfold wrapInt32 toInt32 toUInt32
  split <;> omega

theorem wrapInt32_isInt32 (i : Int) : IsInt32 (wrapInt32 i) := by
  unfold IsInt32 wrapInt32 toInt32 toUInt32
  split <;> omega

theorem wrapInt32_add_wrap (x y : Int) : wrapInt32 (wrapInt32 x + y) = wrapInt32 (x + y) := by
  unfold wrapInt32 toInt32 toUInt32
  split <;> split <;> split <;> omega

/-! ## Chains -/

theorem chainGet_eq_none_iff (key : Int) (c : Chain) :
    chainGet key c = none ↔ key ∉ c.map Prod.fst := by
  induction c with
  | nil => simp [chainGet]
  | cons e rest ih =>
      obtain ⟨k, v⟩ := e
      by_cases h : k = key
      · simp [chainGet, h]
      · have h' : ¬ key = k := fun x => h x.symm
        simp [chainGet, h, h', ih]

theorem chainGet_of_mem (key value : Int) (c : Chain) (hn : (c.map Prod.fst).Nodup)
    (hm : (key, value) ∈ c) : chainGet key c = some value := by
  induction c with
  | nil => simp at hm
  | cons e rest ih =>
      obtain ⟨k, v⟩ := e
      simp only [List.map_cons, List.nodup_cons] at hn
      rcases List.mem_cons.1 hm with h | h
      · cases h; simp [chainGet]
      · have hk : k ≠ key := by
          intro hk; subst hk
          exact hn.1 (List.mem_map.2 ⟨(k, value), h, rfl⟩)
        simp [chainGet, hk, ih hn.2 h]

theorem chainGet_mem (key value : Int) (c : Chain) (h : chainGet key c = some value) :
    (key, value) ∈ c := by
  induction c with
  | nil => simp [chainGet] at h
  | cons e rest ih =>
      obtain ⟨k, v⟩ := e
      by_cases hk : k = key
      · simp [chainGet, hk] at h; simp [hk, h]
      · simp [chainGet, hk] at h; exact List.mem_cons_of_mem _ (ih h)

theorem chainPut_of_not_mem (key value : Int) (c : Chain) (h : key ∉ c.map Prod.fst) :
    chainPut key value c = (c ++ [(key, value)], true) := by
  induction c with
  | nil => simp [chainPut]
  | cons e rest ih =>
      obtain ⟨k, v⟩ := e
      simp only [List.map_cons, List.mem_cons, not_or] at h
      have hk : ¬ k = key := fun x => h.1 x.symm
      simp [chainPut, hk, ih h.2]

theorem chainPut_keys_of_mem (key value : Int) (c : Chain) (h : key ∈ c.map Prod.fst) :
    (chainPut key value c).1.map Prod.fst = c.map Prod.fst ∧ (chainPut key value c).2 = false := by
  induction c with
  | nil => simp at h
  | cons e rest ih =>
      obtain ⟨k, v⟩ := e
      by_cases hk : k = key
      · simp [chainPut, hk]
      · have h' : key ∈ rest.map Prod.fst := by
          simp only [List.map_cons, List.mem_cons] at h
          rcases h with h | h
          · exact absurd h.symm hk
          · exact h
        simp [chainPut, hk, ih h']

theorem chainPut_length_of_mem (key value : Int) (c : Chain) (h : key ∈ c.map Prod.fst) :
    (chainPut key value c).1.length = c.length := by
  have := congrArg List.length (chainPut_keys_of_mem key value c h).1
  simpa using this

theorem chainGet_chainPut_same (key value : Int) (c : Chain) :
    chainGet key (chainPut key value c).1 = some value := by
  induction c with
  | nil => simp [chainPut, chainGet]
  | cons e rest ih =>
      obtain ⟨k, v⟩ := e
      by_cases hk : k = key
      · simp [chainPut, chainGet, hk]
      · simp [chainPut, chainGet, hk, ih]

theorem chainGet_chainPut_other (key value other : Int) (c : Chain) (h : other ≠ key) :
    chainGet other (chainPut key value c).1 = chainGet other c := by
  induction c with
  | nil =>
      have h' : ¬ key = other := fun x => h x.symm
      simp [chainPut, chainGet, h']
  | cons e rest ih =>
      obtain ⟨k, v⟩ := e
      by_cases hk : k = key
      · subst hk
        have h' : ¬ k = other := fun x => h x.symm
        simp [chainPut, chainGet, h']
      · by_cases ho : k = other
        · subst ho
          simp [chainPut, chainGet, hk]
        · simp [chainPut, chainGet, hk, ho, ih]

theorem chainPut_keys_subset (key value : Int) (c : Chain) :
    ∀ e ∈ (chainPut key value c).1, e.1 = key ∨ e.1 ∈ c.map Prod.fst := by
  intro e he
  by_cases h : key ∈ c.map Prod.fst
  · right
    rw [← (chainPut_keys_of_mem key value c h).1]
    exact List.mem_map.2 ⟨e, he, rfl⟩
  · rw [chainPut_of_not_mem key value c h] at he
    simp only [List.mem_append, List.mem_singleton] at he
    rcases he with he | he
    · right; exact List.mem_map.2 ⟨e, he, rfl⟩
    · left; rw [he]

theorem chainPut_nodup (key value : Int) (c : Chain) (hn : (c.map Prod.fst).Nodup) :
    ((chainPut key value c).1.map Prod.fst).Nodup := by
  by_cases h : key ∈ c.map Prod.fst
  · rw [(chainPut_keys_of_mem key value c h).1]; exact hn
  · rw [chainPut_of_not_mem key value c h]
    simp only [List.map_append, List.map_cons, List.map_nil]
    rw [List.nodup_append]
    refine ⟨hn, List.nodup_singleton _, ?_⟩
    intro a ha hb
    simp only [List.mem_singleton] at hb
    subst hb; exact h ha

/-! ## The bucket array -/

theorem slot_lt (key : Int) : slot key < 10 := by
  unfold slot
  have h := Int.tmod_lt_of_pos (hashFunction key) (by decide : (0 : Int) < 10)
  omega

theorem slot_cast (key : Int) (h : ValidKey key) :
    ((slot key : Nat) : Int) = Int.tmod (hashFunction key) 10 := by
  unfold slot
  unfold ValidKey at h
  omega

theorem chainPut_mem (key value : Int) (c : Chain) :
    ∀ e ∈ (chainPut key value c).1, e = (key, value) ∨ e ∈ c := by
  induction c with
  | nil => intro e he; simp [chainPut] at he; exact Or.inl he
  | cons x rest ih =>
      obtain ⟨k, v⟩ := x
      intro e he
      by_cases hk : k = key
      · subst hk
        simp only [chainPut, if_true, List.mem_cons] at he
        rcases he with he | he
        · exact Or.inl he
        · right; simp [he]
      · simp only [chainPut, if_neg hk, List.mem_cons] at he
        rcases he with he | he
        · right; simp [he]
        · rcases ih e he with h | h
          · exact Or.inl h
          · right; simp [h]

theorem length_flatten_set {α : Type} (l : List (List α)) (i : Nat) (c c1 : List α)
    (h : l[i]? = some c) :
    (l.set i c1).flatten.length + c.length = l.flatten.length + c1.length := by
  induction l generalizing i with
  | nil => simp at h
  | cons x xs ih =>
      cases i with
      | zero =>
          simp only [List.getElem?_cons_zero, Option.some.injEq] at h
          subst h
          simp only [List.set_cons_zero, List.flatten_cons, List.length_append]
          omega
      | succ j =>
          simp only [List.getElem?_cons_succ] at h
          have := ih j h
          simp only [List.set_cons_succ, List.flatten_cons, List.length_append]
          omega

theorem mem_flatten_set {α : Type} (l : List (List α)) (i : Nat) (c1 : List α) (x : α)
    (h : x ∈ (l.set i c1).flatten) : x ∈ c1 ∨ x ∈ l.flatten := by
  induction l generalizing i with
  | nil => simp at h
  | cons y ys ih =>
      cases i with
      | zero =>
          simp only [List.set_cons_zero, List.flatten_cons, List.mem_append] at h
          rcases h with h | h
          · exact Or.inl h
          · right; simp [h]
      | succ j =>
          simp only [List.set_cons_succ, List.flatten_cons, List.mem_append] at h
          rcases h with h | h
          · right; simp [h]
          · rcases ih j h with h | h
            · exact Or.inl h
            · right; simp [h]

theorem mem_flatten_of_getElem? {α : Type} (l : List (List α)) (i : Nat) (c : List α)
    (x : α) (h : l[i]? = some c) (hx : x ∈ c) : x ∈ l.flatten := by
  rw [List.mem_flatten]
  exact ⟨c, List.getElem?_mem h, hx⟩

/-! ## The invariant -/

theorem WF_ctor : hashmap.ctor.WF := by
  refine ⟨rfl, rfl, ?_, ?_, rfl⟩
  · intro i c h e he
    have : c = [] := by
      have hm := List.getElem?_mem h
      simp [hashmap.ctor, createBucketArray] at hm
      exact hm
    subst this; simp at he
  · intro i c h
    have : c = [] := by
      have hm := List.getElem?_mem h
      simp [hashmap.ctor, createBucketArray] at hm
      exact hm
    subst this; simp

theorem bucket_of_valid (m : hashmap) (hw : m.WF) (key : Int) (hk : ValidKey key) :
    ∃ c, m.buckets[slot key]? = some c ∧ m.bucket (m.choice key) = .ok c := by
  have hlt : slot key < m.buckets.length := by rw [hw.length_eq]; exact slot_lt key
  refine ⟨m.buckets[slot key], List.getElem?_eq_getElem hlt, ?_⟩
  unfold hashmap.bucket hashmap.choice
  unfold ValidKey at hk
  rw [hw.nBuckets_eq, if_pos hk]
  have : (Int.tmod (hashFunction key) 10).toNat = slot key := rfl
  rw [this, List.get?_eq_getElem?, List.getElem?_eq_getElem hlt]

theorem bucket_of_invalid (m : hashmap) (hw : m.WF) (key : Int)
    (hk : ¬ ValidKey key) :
    m.bucket (m.choice key) = .error .badBucket := by
  unfold hashmap.bucket hashmap.choice
  unfold ValidKey at hk
  rw [hw.nBuckets_eq, if_neg hk]

theorem lookup_eq (m : hashmap) (key : Int) (c : Chain) (h : m.buckets[slot key]? = some c) :
    m.lookup key = chainGet key c := by
  unfold hashmap.lookup
  rw [List.getD_eq_getElem?_getD, h]; rfl

theorem get_of_valid (m : hashmap) (hw : m.WF) (key : Int) (hk : ValidKey key) :
    m.get key = match m.lookup key with
      | some v => .ok v
      | none => .error .keyNotInMap := by
  obtain ⟨c, hc, hb⟩ := bucket_of_valid m hw key hk
  unfold hashmap.get
  rw [hb, lookup_eq m key c hc]

theorem containsKey_of_valid (m : hashmap) (hw : m.WF) (key : Int)
    (hk : ValidKey key) : m.containsKey key = .ok (m.lookup key).isSome := by
  obtain ⟨c, hc, hb⟩ := bucket_of_valid m hw key hk
  unfold hashmap.containsKey
  rw [hb, lookup_eq m key c hc]

theorem put_of_valid (m : hashmap) (hw : m.WF) (key value : Int)
    (hk : ValidKey key) :
    ∃ c, m.buckets[slot key]? = some c ∧
      m.put key value = .ok
        { m with
          buckets := m.buckets.set (slot key) (chainPut key value c).1
          nElems := if (chainPut key value c).2 then m.nElems + 1 else m.nElems } := by
  obtain ⟨c, hc, hb⟩ := bucket_of_valid m hw key hk
  refine ⟨c, hc, ?_⟩
  unfold hashmap.put
  rw [hb]
  have : (m.choice key).toNat = slot key := by
    unfold hashmap.choice slot; rw [hw.nBuckets_eq]
  simp only [this]

theorem WF_put (m m1 : hashmap) (hw : m.WF) (key value : Int)
    (h : m.put key value = .ok m1) : m1.WF := by
  by_cases hk : ValidKey key
  swap
  · unfold hashmap.put at h
    rw [bucket_of_invalid m hw key hk] at h
    cases h
  obtain ⟨c, hc, hp⟩ := put_of_valid m hw key value hk
  rw [hp] at h
  injection h with h
  subst h
  have hlt : slot key < m.buckets.length := by rw [hw.length_eq]; exact slot_lt key
  refine ⟨hw.nBuckets_eq, by simp [hw.length_eq], ?_, ?_, ?_⟩
  · intro i c1 hi1 e he
    simp only [] at hi1
    by_cases his : slot key = i
    · subst his
      rw [List.getElem?_set_self hlt] at hi1
      injection hi1 with hi1
      subst hi1
      rcases chainPut_keys_subset key value c e he with h1 | h1
      · rw [h1, slot_cast key hk]
      · obtain ⟨e1, he1, hfe⟩ := List.mem_map.1 h1
        rw [← hfe]
        exact hw.home _ c hc e1 he1
    · rw [List.getElem?_set_ne his] at hi1
      exact hw.home i c1 hi1 e he
  · intro i c1 hi1
    simp only [] at hi1
    by_cases his : slot key = i
    · subst his
      rw [List.getElem?_set_self hlt] at hi1
      injection hi1 with hi1
      subst hi1
      exact chainPut_nodup key value c (hw.nodup _ c hc)
    · rw [List.getElem?_set_ne his] at hi1
      exact hw.nodup i c1 hi1
  · simp only []
    have hlen := length_flatten_set m.buckets (slot key) c (chainPut key value c).1 hc
    by_cases hmem : key ∈ c.map Prod.fst
    · rw [(chainPut_keys_of_mem key value c hmem).2]
      have := chainPut_length_of_mem key value c hmem
      simp only [Bool.false_eq_true, if_false]
      rw [hw.nElems_eq]
      omega
    · rw [chainPut_of_not_mem key value c hmem] at hlen ⊢
      simp only [if_true]
      rw [hw.nElems_eq]
      simp only [List.length_append, List.length_singleton] at hlen
      omega

/-! ## `put`, `get` and `keys` on maps that satisfy the invariant -/

theorem put_ok_of_valid (m : hashmap) (hw : m.WF) (key value : Int) (hk : ValidKey key) :
    ∃ m1, m.put key value = .ok m1 := by
  obtain ⟨c, _, hp⟩ := put_of_valid m hw key value hk
  exact ⟨_, hp⟩

theorem valid_of_put (m m1 : hashmap) (hw : m.WF) (key value : Int)
    (h : m.put key value = .ok m1) : ValidKey key := by
  by_contra hk
  unfold hashmap.put at h
  rw [bucket_of_invalid m hw key hk] at h
  cases h

theorem lookup_put (m m1 : hashmap) (hw : m.WF) (key value : Int)
    (h : m.put key value = .ok m1) (other : Int) :
    m1.lookup other = if other = key then some value else m.lookup other := by
  have hk := valid_of_put m m1 hw key value h
  obtain ⟨c, hc, hp⟩ := put_of_valid m hw key value hk
  rw [hp] at h
  injection h with h
  subst h
  have hlt : slot key < m.buckets.length := by rw [hw.length_eq]; exact slot_lt key
  unfold hashmap.lookup
  simp only [List.getD_eq_getElem?_getD]
  by_cases hs : slot key = slot other
  · rw [← hs, List.getElem?_set_self hlt, hc]
    simp only [Option.getD_some]
    by_cases ho : other = key
    · subst ho; simp [chainGet_chainPut_same]
    · simp [ho, chainGet_chainPut_other _ _ _ _ ho]
  · rw [List.getElem?_set_ne hs]
    have ho : other ≠ key := by
      intro ho; subst ho; exact hs rfl
    simp [ho]

theorem WF_of_reachable (m : hashmap) (h : Reachable m) : m.WF := by
  induction h with
  | ctor => exact WF_ctor
  | put _ hp ih => exact WF_put _ _ ih _ _ hp

theorem entries_eq (m : hashmap) (hw : m.WF) : m.entries = m.buckets.flatten := by
  unfold hashmap.entries
  rw [hw.nBuckets_eq]
  have : (10 : Int).toNat = 10 := rfl
  rw [this, List.take_of_length_le (by rw [hw.length_eq])]

theorem keys_eq (m : hashmap) : m.keys = m.entries.map Prod.fst := by
  unfold hashmap.keys hashmap.entries
  rw [List.map_flatten]

theorem mem_entries_iff (m : hashmap) (hw : m.WF) (key value : Int) :
    (key, value) ∈ m.entries ↔ m.lookup key = some value := by
  rw [entries_eq m hw]
  constructor
  · intro h
    obtain ⟨c, hc, he⟩ := List.mem_flatten.1 h
    obtain ⟨i, hi⟩ := List.getElem?_of_mem hc
    have hh := hw.home i c hi (key, value) he
    have hs : slot key = i := by
      unfold slot; simp only [] at hh; omega
    subst hs
    rw [lookup_eq m key c hi]
    exact chainGet_of_mem key value c (hw.nodup _ c hi) he
  · intro h
    unfold hashmap.lookup at h
    have hm := chainGet_mem key value _ h
    rw [List.getD_eq_getElem?_getD] at hm
    cases hb : m.buckets[slot key]? with
    | none => rw [hb] at hm; simp at hm
    | some c =>
        rw [hb] at hm
        exact mem_flatten_of_getElem? _ _ c _ hb hm

theorem mem_keys_iff (m : hashmap) (hw : m.WF) (key : Int) :
    key ∈ m.keys ↔ (m.lookup key).isSome = true := by
  rw [keys_eq]
  constructor
  · intro h
    obtain ⟨e, he, hfe⟩ := List.mem_map.1 h
    obtain ⟨k, v⟩ := e
    simp only [] at hfe
    subst hfe
    rw [(mem_entries_iff m hw k v).1 he]; rfl
  · intro h
    obtain ⟨v, hv⟩ := Option.isSome_iff_exists.1 h
    exact List.mem_map.2 ⟨(key, v), (mem_entries_iff m hw key v).2 hv, rfl⟩

theorem valid_of_mem_entries (m : hashmap) (hw : m.WF) (e : Int × Int) (h : e ∈ m.entries) :
    ValidKey e.1 := by
  rw [entries_eq m hw] at h
  obtain ⟨c, hc, he⟩ := List.mem_flatten.1 h
  obtain ⟨i, hi⟩ := List.getElem?_of_mem hc
  have hh := hw.home i c hi e he
  unfold ValidKey
  omega

theorem get_of_mem_entries (m : hashmap) (hw : m.WF) (e : Int × Int) (h : e ∈ m.entries) :
    m.get e.1 = .ok e.2 := by
  rw [get_of_valid m hw e.1 (valid_of_mem_entries m hw e h),
    (mem_entries_iff m hw e.1 e.2).1 h]

theorem entries_keys_nodup (m : hashmap) (hw : m.WF) : (m.entries.map Prod.fst).Nodup := by
  rw [entries_eq m hw, List.map_flatten, List.nodup_flatten]
  constructor
  · intro l hl
    obtain ⟨c, hc, hcl⟩ := List.mem_map.1 hl
    obtain ⟨i, hi⟩ := List.getElem?_of_mem hc
    rw [← hcl]
    exact hw.nodup i c hi
  · rw [List.pairwise_map, List.pairwise_iff_getElem]
    intro i j hi hj hij
    intro a ha hb
    obtain ⟨e1, he1, h1⟩ := List.mem_map.1 ha
    obtain ⟨e2, he2, h2⟩ := List.mem_map.1 hb
    have g1 := hw.home i _ (List.getElem?_eq_getElem hi) e1 he1
    have g2 := hw.home j _ (List.getElem?_eq_getElem hj) e2 he2
    rw [h1] at g1
    rw [h2] at g2
    omega

theorem keys_nodup (m : hashmap) (hw : m.WF) : m.keys.Nodup := by
  rw [keys_eq]; exact entries_keys_nodup m hw

theorem size_eq_length_keys (m : hashmap) (hw : m.WF) : m.size = (m.keys.length : Int) := by
  unfold hashmap.size
  rw [hw.nElems_eq, keys_eq, entries_eq m hw, List.length_map]

/-! ## Character codes -/

set_option maxRecDepth 100000 in
theorem validKey_charCode :
    ∀ (signedChar : Bool) (b : Byte), ValidKey (charCode signedChar b) := by
  decide

theorem validKey_PSEUDO_EOF : ValidKey PSEUDO_EOF := by decide

theorem charCode_range (signedChar : Bool) (b : Byte) :
    -128 ≤ charCode signedChar b ∧ charCode signedChar b ≤ 255 := by
  unfold charCode
  have := b.isLt
  cases signedChar
  · simp only [Bool.false_and, Bool.false_eq_true, if_false]; omega
  · simp only [Bool.true_and, decide_eq_true_eq]; split <;> omega

theorem charCode_ne_PSEUDO_EOF (signedChar : Bool) (b : Byte) :
    charCode signedChar b ≠ PSEUDO_EOF := by
  have := charCode_range signedChar b
  unfold PSEUDO_EOF
  omega

theorem toByte_charCode (signedChar : Bool) (b : Byte) :
    toByte (charCode signedChar b) = b := by
  apply Fin.ext
  unfold toByte charCode
  have := b.isLt
  cases signedChar
  · simp only [Bool.false_and, Bool.false_eq_true, if_false]; omega
  · simp only [Bool.true_and, decide_eq_true_eq]; split <;> omega

theorem charCode_injective (signedChar : Bool) :
    Function.Injective (charCode signedChar) := by
  intro a b h
  have := congrArg toByte h
  rwa [toByte_charCode, toByte_charCode] at this

/-! ## The frequency counter -/

theorem lookup_ctor (key : Int) : hashmap.ctor.lookup key = none := by
  unfold hashmap.lookup
  rw [List.getD_eq_getElem?_getD]
  have h : hashmap.ctor.buckets[slot key]? = some [] := by
    show (List.replicate 10 ([] : Chain))[slot key]? = some []
    rw [List.getElem?_replicate, if_pos (slot_lt key)]
  rw [h]; rfl

theorem countChar_spec (signedChar : Bool) (m : hashmap) (hr : Reachable m) (c : Byte) :
    ∃ m1, countChar signedChar m c = .ok m1 ∧ Reachable m1 ∧
      ∀ key, m1.lookup key =
        if key = charCode signedChar c
        then some (wrapInt32 ((m.lookup (charCode signedChar c)).getD 0 + 1))
        else m.lookup key := by
  have hw := WF_of_reachable m hr
  have hk := validKey_charCode signedChar c
  unfold countChar
  rw [containsKey_of_valid m hw _ hk]
  cases hl : m.lookup (charCode signedChar c) with
  | none =>
      obtain ⟨m1, hp⟩ := put_ok_of_valid m hw (charCode signedChar c) 1 hk
      refine ⟨m1, ?_, Reachable.put hr hp, ?_⟩
      · simpa using hp
      · intro key
        rw [lookup_put m m1 hw _ _ hp key]
        have h1 : wrapInt32 1 = 1 := by decide
        simp [h1]
  | some v =>
      obtain ⟨m1, hp⟩ :=
        put_ok_of_valid m hw (charCode signedChar c) (wrapInt32 (v + 1)) hk
      refine ⟨m1, ?_, Reachable.put hr hp, ?_⟩
      · simp only [Option.isSome_some]
        rw [get_of_valid m hw _ hk, hl]
        exact hp
      · intro key
        rw [lookup_put m m1 hw _ _ hp key]
        simp

theorem countChars_spec (signedChar : Bool) (input : List Byte) :
    ∀ (m : hashmap), Reachable m →
    ∃ m1, countChars signedChar input m = .ok m1 ∧ Reachable m1 ∧
      ∀ key, m1.lookup key =
        if (input.map (charCode signedChar)).count key = 0 then m.lookup key
        else some (wrapInt32
          ((m.lookup key).getD 0 + ((input.map (charCode signedChar)).count key : Int))) := by
  induction input with
  | nil => intro m hr; exact ⟨m, rfl, hr, by intro key; simp⟩
  | cons c rest ih =>
      intro m hr
      obtain ⟨m1, h1, hr1, hl1⟩ := countChar_spec signedChar m hr c
      obtain ⟨m2, h2, hr2, hl2⟩ := ih m1 hr1
      refine ⟨m2, ?_, hr2, ?_⟩
      · simp only [countChars, h1, h2]
      · intro key
        rw [hl2 key, hl1 key]
        simp only [List.map_cons, List.count_cons]
        by_cases hk : key = charCode signedChar c
        · subst hk
          simp only [if_true, beq_self_eq_true]
          by_cases h0 : List.count (charCode signedChar c) (List.map (charCode signedChar) rest) = 0
          · simp [h0]
          · simp only [h0, if_false, Option.getD_some]
            have : List.count (charCode signedChar c) (List.map (charCode signedChar) rest) + 1 ≠ 0 := by
              omega
            simp only [this, if_false, Option.some.injEq]
            rw [wrapInt32_add_wrap]
            congr 1
            push_cast
            ring
        · have hk' : (charCode signedChar c == key) = false := by
            simp only [beq_eq_false_iff_ne, ne_eq]
            exact fun h => hk h.symm
          simp [hk, hk']

/-- The frequency map of an input on a fresh map: it is built, it is reachable, its keys
are `PSEUDO_EOF` and the codes of the bytes, each once, with the number of occurrences,
counted in an `int`, as value. -/
theorem buildFrequencyMap_ok (signedChar : Bool) (S : List Byte) :
    ∃ map, buildFrequencyMap signedChar S hashmap.ctor = .ok map ∧
      Reachable map ∧ map.keys.Nodup ∧
      (∀ key, key ∈ map.keys ↔ key = PSEUDO_EOF ∨ ∃ b ∈ S, key = charCode signedChar b) ∧
      (∀ b ∈ S, map.get (charCode signedChar b) = .ok (wrapInt32 (S.count b : Int))) ∧
      map.get PSEUDO_EOF = .ok 1 ∧
      (S = [] → map.keys = [PSEUDO_EOF]) := by
  obtain ⟨m1, h1, hr1, hl1⟩ := countChars_spec signedChar S hashmap.ctor Reachable.ctor
  have hw1 := WF_of_reachable m1 hr1
  obtain ⟨m2, hp⟩ := put_ok_of_valid m1 hw1 PSEUDO_EOF 1 validKey_PSEUDO_EOF
  have hr2 := Reachable.put hr1 hp
  have hw2 := WF_of_reachable m2 hr2
  have hl2 := lookup_put m1 m2 hw1 _ _ hp
  have hcount : ∀ b, (S.map (charCode signedChar)).count (charCode signedChar b) = S.count b :=
    fun b => List.count_map_of_injective S _ (charCode_injective signedChar) b
  have hkeys : ∀ key, key ∈ m2.keys ↔ key = PSEUDO_EOF ∨ ∃ b ∈ S, key = charCode signedChar b := by
    intro key
    rw [mem_keys_iff m2 hw2, hl2 key]
    by_cases hk : key = PSEUDO_EOF
    · simp [hk]
    · simp only [hk, if_false, false_or]
      rw [hl1 key, lookup_ctor]
      by_cases h0 : (S.map (charCode signedChar)).count key = 0
      · simp only [h0, if_true, Option.isSome_none]
        constructor
        · intro h; cases h
        · rintro ⟨b, hb, rfl⟩
          rw [hcount b] at h0
          exact absurd hb (List.count_eq_zero.1 h0)
      · simp only [h0, if_false, Option.isSome_some, true_iff]
        have hm : key ∈ S.map (charCode signedChar) := by
          by_contra hn
          exact h0 (List.count_eq_zero.2 hn)
        obtain ⟨b, hb, hbe⟩ := List.mem_map.1 hm
        exact ⟨b, hb, hbe.symm⟩
  refine ⟨m2, ?_, hr2, keys_nodup m2 hw2, hkeys, ?_, ?_, ?_⟩
  · simp only [buildFrequencyMap, h1, hp]
  · intro b hb
    rw [get_of_valid m2 hw2 _ (validKey_charCode signedChar b), hl2,
      if_neg (charCode_ne_PSEUDO_EOF signedChar b), hl1, hcount b, lookup_ctor]
    have : S.count b ≠ 0 := by
      intro h0; exact absurd hb (List.count_eq_zero.1 h0)
    simp [this]
  · rw [get_of_valid m2 hw2 _ validKey_PSEUDO_EOF, hl2]
    simp
  · intro hS
    subst hS
    simp only [countChars] at h1
    injection h1 with h1
    subst h1
    have : hashmap.ctor.put PSEUDO_EOF 1 = .ok m2 := hp
    have hd : (hashmap.ctor.put PSEUDO_EOF 1).map hashmap.keys = .ok [PSEUDO_EOF] := by decide
    rw [this] at hd
    injection hd

/-- C6, counterexample: for the input made of `2^31` bytes `a` the counter of `a` ends at
`-2^31`, not at the number of occurrences `2^31`, which an `int` cannot hold. -/
theorem buildFrequencyMap_spec_counterexample :
    ∃ map, buildFrequencyMap false (List.replicate 2147483648 97) hashmap.ctor = .ok map ∧
      map.get (charCode false 97) = .ok (-2147483648) ∧
      map.get (charCode false 97) ≠
        .ok (((List.replicate 2147483648 (97 : Byte)).count 97 : Nat) : Int) := by
  obtain ⟨map, h1, _, _, _, h4, _, _⟩ :=
    buildFrequencyMap_ok false (List.replicate 2147483648 97)
  have hc : (List.replicate 2147483648 (97 : Byte)).count 97 = 2147483648 :=
    List.count_replicate_self 97 2147483648
  have hm : (97 : Byte) ∈ List.replicate 2147483648 (97 : Byte) :=
    List.mem_replicate.2 ⟨by decide, rfl⟩
  have hg := h4 97 hm
  rw [hc] at hg ⊢
  have hw : wrapInt32 ((2147483648 : Nat) : Int) = -2147483648 := by decide
  rw [hw] at hg
  refine ⟨map, h1, hg, ?_⟩
  rw [hg]
  intro h
  injection h with h
  revert h
  decide

/-- C6 (frequency counter), amended: `buildFrequencyMap` called with `isFile = false` (or
on the content of a file) and a freshly constructed map returns, and the map it leaves
has as keys exactly `PSEUDO_EOF` and the codes of the bytes of the input, each once;
every byte maps to its number of occurrences reduced to the range of `int` (modulo
`2^32`), which is the number of occurrences itself for a byte that occurs at most
`2^31 - 1` times, and `PSEUDO_EOF` maps to 1; for the empty input the only key is
`PSEUDO_EOF`. -/
theorem buildFrequencyMap_spec (signedChar : Bool) (S : List Byte) :
    ∃ map, buildFrequencyMap signedChar S hashmap.ctor = .ok map ∧
      map.keys.Nodup ∧
      (∀ key, key ∈ map.keys ↔ key = PSEUDO_EOF ∨ ∃ b ∈ S, key = charCode signedChar b) ∧
      (∀ b ∈ S, map.get (charCode signedChar b) = .ok (wrapInt32 (S.count b : Int))) ∧
      (∀ b ∈ S, S.count b ≤ 2147483647 →
        map.get (charCode signedChar b) = .ok (S.count b : Int)) ∧
      map.get PSEUDO_EOF = .ok 1 ∧
      (S = [] → map.keys = [PSEUDO_EOF] ∧ map.size = 1) := by
  obtain ⟨map, h1, hr, h2, h3, h4, h5, h6⟩ := buildFrequencyMap_ok signedChar S
  refine ⟨map, h1, h2, h3, h4, ?_, h5, ?_⟩
  · intro b hb hle
    rw [h4 b hb, wrapInt32_of_isInt32]
    unfold IsInt32
    omega
  intro hS
  have hk := h6 hS
  refine ⟨hk, ?_⟩
  rw [size_eq_length_keys map (WF_of_reachable map hr), hk]
  rfl

/-! ## The tree builder -/

theorem Merges_perm {F G : List HuffmanNode} {T : HuffmanNode} (h : Merges F T)
    (hp : F.Perm G) : Merges G T := by
  cases h with
  | done t =>
      have : G = [T] := List.perm_singleton.1 hp.symm
      subst this
      exact Merges.done T
  | step _ rest x y _ h1 h2 h3 h4 =>
      refine Merges.step G rest x y T (hp.symm.trans h1) ?_ h3 h4
      intro z hz
      exact h2 z (hp.mem_iff.2 hz)

theorem pushLeaves_spec (P : PriorityQueue) (hP : P.Lawful) (m : hashmap)
    (es : List (Int × Int)) (hg : ∀ e ∈ es, m.get e.1 = .ok e.2) :
    ∀ q, ∃ q1, pushLeaves P m (es.map Prod.fst) q = .ok q1 ∧
      (P.items q1).Perm (P.items q ++ es.map leafNode) := by
  induction es with
  | nil => intro q; exact ⟨q, rfl, by simp⟩
  | cons e rest ih =>
      intro q
      have he := hg e (List.mem_cons_self _ _)
      obtain ⟨q1, h1, h2⟩ :=
        ih (fun e1 h => hg e1 (List.mem_cons_of_mem _ h)) (P.push q (.node e.1 e.2 .nil .nil))
      refine ⟨q1, ?_, ?_⟩
      · simp only [List.map_cons, pushLeaves, he]
        exact h1
      · refine h2.trans ?_
        have h3 := hP.items_push q (.node e.1 e.2 .nil .nil)
        refine (List.Perm.append_right _ h3).trans ?_
        simp only [List.map_cons, List.cons_append]
        exact List.perm_middle.symm

theorem count_le_of_compare (x z : HuffmanNode) (h : compareNodes x z = false) :
    x.count ≤ z.count := by
  unfold compareNodes at h
  simp only [gt_iff_lt, decide_eq_false_iff_not, not_lt] at h
  exact h

theorem mergeLoop_spec (P : PriorityQueue) (hP : P.Lawful) :
    ∀ (fuel : Nat) (q : P.Q), (∀ t ∈ P.items q, t ≠ .nil) → P.items q ≠ [] →
      (P.items q).length ≤ fuel + 1 →
      ∃ q1 T, mergeLoop P fuel q = .ok q1 ∧ P.top q1 = some T ∧ Merges (P.items q) T := by
  have base : ∀ (q : P.Q), P.items q ≠ [] → (P.items q).length ≤ 1 →
      ∃ T, P.top q = some T ∧ Merges (P.items q) T := by
    intro q hne hlen
    obtain ⟨x, hx, hmem, _, _⟩ := hP.top_min q hne
    refine ⟨x, hx, ?_⟩
    cases hi : P.items q with
    | nil => exact absurd hi hne
    | cons a l =>
        rw [hi] at hlen hmem
        have hl : l = [] := by
          cases l with
          | nil => rfl
          | cons b l1 => simp at hlen
        subst hl
        have : x = a := by simpa using hmem
        subst this
        exact Merges.done x
  intro fuel
  induction fuel with
  | zero =>
      intro q _ hne hlen
      obtain ⟨T, h1, h2⟩ := base q hne (by omega)
      refine ⟨q, T, ?_, h1, h2⟩
      have : ¬ P.size q > 1 := by rw [hP.size_eq]; omega
      simp only [mergeLoop, if_neg this]
  | succ fuel ih =>
      intro q hnn hne hlen
      by_cases hs : P.size q > 1
      · obtain ⟨x, hx, hxm, hxmin, hxp⟩ := hP.top_min q hne
        have hlen1 : ((P.items q).erase x).length = (P.items q).length - 1 :=
          List.length_erase_of_mem hxm
        rw [hP.size_eq] at hs
        have hne1 : P.items (P.pop q) ≠ [] := by
          intro h0
          have := hxp.length_eq
          rw [h0, hlen1] at this
          simp at this
          omega
        obtain ⟨y, hy, hym, hymin, hyp⟩ := hP.top_min (P.pop q) hne1
        have hperm : (P.items q).Perm (x :: y :: P.items (P.pop (P.pop q))) := by
          refine (List.perm_cons_erase hxm).trans (List.Perm.cons _ ?_)
          refine hxp.symm.trans ?_
          exact (List.perm_cons_erase hym).trans (List.Perm.cons _ hyp.symm)
        have hyq : y ∈ P.items q := hperm.mem_iff.2 (by simp)
        have hxn := hnn x hxm
        have hyn := hnn y hyq
        cases x with
        | nil => exact absurd rfl hxn
        | node lch lc lz lo =>
          cases y with
          | nil => exact absurd rfl hyn
          | node rch rc rz ro =>
            have hpush := hP.items_push (P.pop (P.pop q))
              (.node NOT_A_CHAR (wrapInt32 (lc + rc)) (.node lch lc lz lo) (.node rch rc rz ro))
            have hlen2 : (P.items q).length = (P.items (P.pop (P.pop q))).length + 2 := by
              have := hperm.length_eq
              simpa using this
            obtain ⟨q1, T, h1, h2, h3⟩ := ih
              (P.push (P.pop (P.pop q))
                (.node NOT_A_CHAR (wrapInt32 (lc + rc)) (.node lch lc lz lo) (.node rch rc rz ro)))
              (by
                intro t ht
                rcases List.mem_cons.1 (hpush.mem_iff.1 ht) with h | h
                · rw [h]; simp
                · exact hnn t (hperm.mem_iff.2 (by simp [h])))
              (by
                intro h0
                have := hpush.length_eq
                rw [h0] at this
                simp at this)
              (by
                have := hpush.length_eq
                simp only [List.length_cons] at this
                omega)
            refine ⟨q1, T, ?_, h2, ?_⟩
            · have hs' : P.size q > 1 := by rw [hP.size_eq]; exact hs
              simp only [mergeLoop, if_pos hs', hx, hy]
              exact h1
            · refine Merges.step _ (P.items (P.pop (P.pop q))) _ _ T hperm ?_ ?_
                (Merges_perm h3 hpush)
              · intro z hz
                exact count_le_of_compare _ z (hxmin z hz)
              · intro z hz
                have hz1 : z ∈ P.items (P.pop q) :=
                  ((List.perm_cons_erase hym).trans (List.Perm.cons _ hyp.symm)).mem_iff.2 hz
                exact count_le_of_compare _ z (hymin z hz1)
      · rw [hP.size_eq] at hs
        obtain ⟨T, h1, h2⟩ := base q hne (by omega)
        refine ⟨q, T, ?_, h1, h2⟩
        have : ¬ P.size q > 1 := by rw [hP.size_eq]; exact hs
        simp only [mergeLoop, if_neg this]

theorem leafNode_ne_nil (e : Int × Int) : leafNode e ≠ .nil := by
  unfold leafNode; simp

theorem buildEncodingTree_merges (P : PriorityQueue) (hP : P.Lawful) (M : hashmap)
    (hw : M.WF) (hne : M.keys ≠ []) :
    ∃ T, buildEncodingTree P M = .ok T ∧ Merges (M.entries.map leafNode) T := by
  obtain ⟨q0, h0, hp0⟩ := pushLeaves_spec P hP M M.entries
    (fun e he => get_of_mem_entries M hw e he) P.empty
  rw [hP.items_empty, List.nil_append] at hp0
  have hne0 : P.items q0 ≠ [] := by
    intro h
    rw [h] at hp0
    have := hp0.symm.eq_nil
    rw [keys_eq] at hne
    simp only [List.map_eq_nil_iff] at this
    exact hne (by rw [this]; rfl)
  obtain ⟨q1, T, h1, h2, h3⟩ := mergeLoop_spec P hP (P.size q0) q0
    (by
      intro t ht
      obtain ⟨e, _, hte⟩ := List.mem_map.1 (hp0.mem_iff.1 ht)
      rw [← hte]; exact leafNode_ne_nil e)
    hne0 (by rw [hP.size_eq]; omega)
  refine ⟨T, ?_, Merges_perm h3 hp0⟩
  rw [← keys_eq] at h0
  simp only [buildEncodingTree, h0, h1, h2]

/-! ## Fullness and leaves of the tree built -/

theorem leaves_leafNode (e : Int × Int) : leaves (leafNode e) = [e] := by
  simp [leafNode, leaves]

theorem full_leafNode (e : Int × Int) : (leafNode e).full = true := by
  simp [leafNode, HuffmanNode.full]

theorem full_ne_nil (t : HuffmanNode) (h : t.full = true) : t ≠ .nil := by
  intro h0; subst h0; simp [HuffmanNode.full] at h

theorem full_parent (c n : Int) (x y : HuffmanNode) (hx : x.full = true)
    (hy : y.full = true) : (HuffmanNode.node c n x y).full = true := by
  have hxn := full_ne_nil x hx
  simp [HuffmanNode.full, hxn, hx, hy]

theorem leaves_parent (c n : Int) (x y : HuffmanNode) (hx : x ≠ .nil) :
    leaves (.node c n x y) = leaves x ++ leaves y := by
  simp [leaves, hx]

theorem Merges_full_leaves {F : List HuffmanNode} {T : HuffmanNode} (h : Merges F T) :
    (∀ t ∈ F, t.full = true) →
      T.full = true ∧ (leaves T).Perm (F.map leaves).flatten := by
  induction h with
  | done t => intro hf; exact ⟨hf t (by simp), by simp⟩
  | step F rest x y T h1 _ _ _ ih =>
      intro hf
      have hx : x.full = true := hf x (h1.mem_iff.2 (by simp))
      have hy : y.full = true := hf y (h1.mem_iff.2 (by simp))
      obtain ⟨g1, g2⟩ := ih (by
        intro t ht
        rcases List.mem_cons.1 ht with h | h
        · rw [h]; exact full_parent _ _ x y hx hy
        · exact hf t (h1.mem_iff.2 (by simp [h])))
      refine ⟨g1, g2.trans ?_⟩
      have h3 : ((F.map leaves).flatten).Perm (((x :: y :: rest).map leaves).flatten) :=
        (h1.map leaves).flatten
      refine List.Perm.trans ?_ h3.symm
      simp only [List.map_cons, List.flatten_cons, leaves_parent _ _ x y (full_ne_nil x hx),
        List.append_assoc]
      exact List.Perm.refl _

theorem flatten_map_leaves_leafNode (es : List (Int × Int)) :
    ((es.map leafNode).map leaves).flatten = es := by
  induction es with
  | nil => rfl
  | cons e rest ih =>
      simp only [List.map_cons, List.flatten_cons, leaves_leafNode, ih, List.singleton_append]

theorem buildEncodingTree_leaves (P : PriorityQueue) (hP : P.Lawful) (M : hashmap)
    (hw : M.WF) (hne : M.keys ≠ []) :
    ∃ T, buildEncodingTree P M = .ok T ∧ Merges (M.entries.map leafNode) T ∧
      T.full = true ∧ (leaves T).Perm M.entries := by
  obtain ⟨T, h1, h2⟩ := buildEncodingTree_merges P hP M hw hne
  obtain ⟨h3, h4⟩ := Merges_full_leaves h2 (by
    intro t ht
    obtain ⟨e, _, hte⟩ := List.mem_map.1 ht
    rw [← hte]; exact full_leafNode e)
  rw [flatten_map_leaves_leafNode] at h4
  exact ⟨T, h1, h2, h3, h4⟩

/-! ## The list queue obeys the laws -/

theorem leastFrom_mem (best : HuffmanNode) (l : List HuffmanNode) :
    leastFrom best l ∈ best :: l := by
  induction l generalizing best with
  | nil => simp [leastFrom]
  | cons x rest ih =>
      simp only [leastFrom]
      split
      · exact List.mem_cons_of_mem _ (ih x)
      · rcases List.mem_cons.1 (ih best) with h | h
        · rw [h]; simp
        · simp [h]

theorem leastFrom_le (best : HuffmanNode) (l : List HuffmanNode) :
    ∀ y ∈ best :: l, (leastFrom best l).count ≤ y.count := by
  induction l generalizing best with
  | nil => intro y hy; simp at hy; subst hy; simp [leastFrom]
  | cons x rest ih =>
      intro y hy
      simp only [leastFrom]
      by_cases hc : compareNodes best x = true
      · rw [if_pos hc]
        have hbx : x.count < best.count := by
          unfold compareNodes at hc; simpa using hc
        have hx := ih x x (by simp)
        rcases List.mem_cons.1 hy with h | h
        · subst h; omega
        · exact ih x y h
      · rw [if_neg hc]
        have hbx : best.count ≤ x.count := by
          unfold compareNodes at hc; simpa using hc
        have hb := ih best best (by simp)
        rcases List.mem_cons.1 hy with h | h
        · subst h; exact hb
        · rcases List.mem_cons.1 h with h | h
          · subst h; omega
          · exact ih best y (by simp [h])

theorem listQueue_lawful : listQueue.Lawful := by
  refine ⟨rfl, ?_, fun _ => rfl, ?_, ?_⟩
  · intro q x
    exact List.perm_append_singleton x (q : List HuffmanNode)
  · intro q h
    have : q = [] := h
    subst this; rfl
  · intro q hne
    cases q with
    | nil => exact absurd rfl hne
    | cons a l =>
        refine ⟨leastFrom a l, rfl, leastFrom_mem a l, ?_, ?_⟩
        · intro y hy
          have := leastFrom_le a l y hy
          unfold compareNodes
          simpa using this
        · exact List.Perm.refl _

/-- C7 (tree invariant): for every priority queue that obeys the queue laws and every
map with at least one key reached by `put` calls, `buildEncodingTree` returns a tree
that is full (each node has two children or none), whose leaves carry exactly the keys
of the map, each key at one leaf only, and each leaf has as count the value the map
holds for its key. -/
theorem buildEncodingTree_full (P : PriorityQueue) (hP : P.Lawful) (M : hashmap)
    (hr : Reachable M) (hne : M.keys ≠ []) :
    ∃ T, buildEncodingTree P M = .ok T ∧ T.full = true ∧
      ((leaves T).map Prod.fst).Perm M.keys ∧ M.keys.Nodup ∧
      ∀ e ∈ leaves T, M.get e.1 = .ok e.2 := by
  have hw := WF_of_reachable M hr
  obtain ⟨T, h1, _, h3, h4⟩ := buildEncodingTree_leaves P hP M hw hne
  refine ⟨T, h1, h3, ?_, keys_nodup M hw, ?_⟩
  · rw [keys_eq]; exact h4.map Prod.fst
  · intro e he
    exact get_of_mem_entries M hw e (h4.mem_iff.1 he)

theorem buildFrequencyMap_sample :
    buildFrequencyMap true sampleInput hashmap.ctor = .ok sampleMap := by decide

theorem reachable_sampleMap : Reachable sampleMap := by
  obtain ⟨m, h1, h2, _⟩ := buildFrequencyMap_ok true sampleInput
  rw [buildFrequencyMap_sample] at h1
  injection h1 with h1
  rw [h1]; exact h2

theorem buildEncodingTree_sample :
    buildEncodingTree listQueue sampleMap = .ok sampleTree := by decide

theorem buildEncodingTree_full_witness :
    ∃ T, buildEncodingTree listQueue sampleMap = .ok T ∧ T.full = true ∧
      ((leaves T).map Prod.fst).Perm sampleMap.keys ∧ sampleMap.keys.Nodup ∧
      ∀ e ∈ leaves T, sampleMap.get e.1 = .ok e.2 :=
  buildEncodingTree_full listQueue listQueue_lawful sampleMap reachable_sampleMap (by decide)

/-! ## The code table -/

theorem codes_keys (t : HuffmanNode) : (codes t).map Prod.fst = (leaves t).map Prod.fst := by
  induction t with
  | nil => rfl
  | node c n z o ihz iho =>
      by_cases h : z = .nil ∧ o = .nil
      · simp [codes, leaves, h]
      · simp only [codes, leaves, if_neg h, List.map_append, List.map_map, ← ihz, ← iho]
        rfl

theorem helper_spec (t : HuffmanNode) :
    ∀ (em : CodeMap) (pre : List Char), ((codes t).map Prod.fst).Nodup →
      (∀ e ∈ codes t, buildEncodingMapHelper t em pre e.1 = some (pre ++ e.2)) ∧
      (∀ k, k ∉ (codes t).map Prod.fst → buildEncodingMapHelper t em pre k = em k) := by
  induction t with
  | nil => intro em pre _; simp [codes, buildEncodingMapHelper]
  | node c n z o ihz iho =>
      intro em pre hn
      by_cases h : z = .nil ∧ o = .nil
      · simp only [codes, if_pos h, buildEncodingMapHelper, List.mem_singleton, List.map_cons,
          List.map_nil, forall_eq, CodeMap.assign, if_true, List.append_nil, true_and]
        intro k hk
        rw [if_neg hk]
      · simp only [codes, if_neg h, List.map_append, List.map_map] at hn
        have hkz : (List.map (Prod.fst ∘ fun e : Int × List Char => (e.1, '0' :: e.2)) (codes z))
            = (codes z).map Prod.fst := by
          apply List.map_congr_left; intro a _; rfl
        have hko : (List.map (Prod.fst ∘ fun e : Int × List Char => (e.1, '1' :: e.2)) (codes o))
            = (codes o).map Prod.fst := by
          apply List.map_congr_left; intro a _; rfl
        rw [hkz, hko, List.nodup_append] at hn
        obtain ⟨hnz, hno, hd⟩ := hn
        obtain ⟨z1, z2⟩ := ihz em (pre ++ ['0']) hnz
        obtain ⟨o1, o2⟩ := iho (buildEncodingMapHelper z em (pre ++ ['0'])) (pre ++ ['1']) hno
        simp only [codes, if_neg h, buildEncodingMapHelper, List.mem_append, List.mem_map,
          List.map_append, List.map_map, hkz, hko]
        constructor
        · rintro e (⟨e1, he1, rfl⟩ | ⟨e1, he1, rfl⟩)
          · have hnot : e1.1 ∉ (codes o).map Prod.fst := fun hm =>
              hd (List.mem_map.2 ⟨e1, he1, rfl⟩) hm
            simp only []
            rw [o2 e1.1 hnot, z1 e1 he1]
            simp
          · simp only []
            rw [o1 e1 he1]
            simp
        · intro k hk
          have hk2 : k ∉ (codes o).map Prod.fst := by
            simp only [List.mem_map]; exact fun hx => hk (Or.inr hx)
          have hk1 : k ∉ (codes z).map Prod.fst := by
            simp only [List.mem_map]; exact fun hx => hk (Or.inl hx)
          rw [o2 k hk2, z2 k hk1]

theorem buildEncodingMap_of_mem (t : HuffmanNode) (hn : ((codes t).map Prod.fst).Nodup)
    (e : Int × List Char) (he : e ∈ codes t) : buildEncodingMap t e.1 = some e.2 := by
  have ht : t ≠ .nil := by
    intro h; subst h; simp [codes] at he
  unfold buildEncodingMap
  rw [if_pos ht, (helper_spec t CodeMap.empty [] hn).1 e he]
  simp

theorem buildEncodingMap_of_not_mem (t : HuffmanNode) (hn : ((codes t).map Prod.fst).Nodup)
    (k : Int) (hk : k ∉ (codes t).map Prod.fst) : buildEncodingMap t k = none := by
  unfold buildEncodingMap
  split
  · rw [(helper_spec t CodeMap.empty [] hn).2 k hk]; rfl
  · rfl

theorem mem_codes_of_buildEncodingMap (t : HuffmanNode)
    (hn : ((codes t).map Prod.fst).Nodup) (k : Int) (p : List Char)
    (h : buildEncodingMap t k = some p) : (k, p) ∈ codes t := by
  by_cases hk : k ∈ (codes t).map Prod.fst
  · obtain ⟨e, he, hfe⟩ := List.mem_map.1 hk
    have := buildEncodingMap_of_mem t hn e he
    rw [hfe, h] at this
    injection this with this
    rw [this, ← hfe]
    exact he
  · rw [buildEncodingMap_of_not_mem t hn k hk] at h
    cases h

theorem codes_prefix_free (t : HuffmanNode) :
    ∀ e1 ∈ codes t, ∀ e2 ∈ codes t, e1.2 <+: e2.2 → e1 = e2 := by
  induction t with
  | nil => intro e1 h1; simp [codes] at h1
  | node c n z o ihz iho =>
      by_cases h : z = .nil ∧ o = .nil
      · simp only [codes, if_pos h, List.mem_singleton]
        intro e1 h1 e2 h2 _
        rw [h1, h2]
      · simp only [codes, if_neg h, List.mem_append, List.mem_map]
        rintro e1 (⟨a, ha, rfl⟩ | ⟨a, ha, rfl⟩) e2 (⟨b, hb, rfl⟩ | ⟨b, hb, rfl⟩) hp
        · simp only [List.cons_prefix_cons, true_and] at hp
          rw [ihz a ha b hb hp]
        · simp only [List.cons_prefix_cons] at hp
          exact absurd hp.1 (by decide)
        · simp only [List.cons_prefix_cons] at hp
          exact absurd hp.1 (by decide)
        · simp only [List.cons_prefix_cons, true_and] at hp
          rw [iho a ha b hb hp]

/-- C4 (prefix-free code): for every priority queue that obeys the queue laws and every
map with at least one key reached by `put` calls, the tree is built and in the code
table derived from it the code of a symbol is never a prefix of the code of another
symbol. -/
theorem buildEncodingMap_prefix_free (P : PriorityQueue) (hP : P.Lawful) (M : hashmap)
    (hr : Reachable M) (hne : M.keys ≠ []) :
    ∃ T, buildEncodingTree P M = .ok T ∧
      ∀ (a b : Int) (pa pb : List Char), a ≠ b →
        buildEncodingMap T a = some pa → buildEncodingMap T b = some pb →
        ¬ pa <+: pb ∧ ¬ pb <+: pa := by
  have hw := WF_of_reachable M hr
  obtain ⟨T, h1, _, _, h4⟩ := buildEncodingTree_leaves P hP M hw hne
  refine ⟨T, h1, ?_⟩
  have hn : ((codes T).map Prod.fst).Nodup := by
    rw [codes_keys]
    exact ((h4.map Prod.fst).nodup_iff).2 (entries_keys_nodup M hw)
  intro a b pa pb hab ha hb
  have ma := mem_codes_of_buildEncodingMap T hn a pa ha
  have mb := mem_codes_of_buildEncodingMap T hn b pb hb
  constructor
  · intro hp
    have := codes_prefix_free T _ ma _ mb hp
    exact hab (congrArg Prod.fst this)
  · intro hp
    have := codes_prefix_free T _ mb _ ma hp
    exact hab (congrArg Prod.fst this).symm

theorem buildEncodingMap_prefix_free_witness :
    ∃ T, buildEncodingTree listQueue sampleMap = .ok T ∧
      ∀ (a b : Int) (pa pb : List Char), a ≠ b →
        buildEncodingMap T a = some pa → buildEncodingMap T b = some pb →
        ¬ pa <+: pb ∧ ¬ pb <+: pa :=
  buildEncodingMap_prefix_free listQueue listQueue_lawful sampleMap reachable_sampleMap
    (by decide)

/-! ## The encoder -/

theorem encodeChars_ok (signedChar : Bool) (E : CodeMap) (S : List Byte)
    (h : ∀ b ∈ S, (E (charCode signedChar b)).isSome = true) :
    ∀ acc, encodeChars signedChar E S acc =
      .ok (acc ++ (S.map (fun b => (E (charCode signedChar b)).getD [])).flatten) := by
  induction S with
  | nil => intro acc; simp [encodeChars]
  | cons c rest ih =>
      intro acc
      obtain ⟨p, hp⟩ := Option.isSome_iff_exists.1 (h c (List.mem_cons_self _ _))
      simp only [encodeChars, hp, List.map_cons, List.flatten_cons, Option.getD_some]
      rw [ih (fun b hb => h b (List.mem_cons_of_mem _ hb))]
      simp

theorem encodeChars_error (signedChar : Bool) (E : CodeMap) (S : List Byte)
    (h : ∃ b ∈ S, E (charCode signedChar b) = none) :
    ∀ acc, encodeChars signedChar E S acc = .error .outOfRange := by
  induction S with
  | nil => obtain ⟨b, hb, _⟩ := h; simp at hb
  | cons c rest ih =>
      intro acc
      cases hc : E (charCode signedChar c) with
      | none => simp only [encodeChars, hc]
      | some p =>
          simp only [encodeChars, hc]
          apply ih
          obtain ⟨b, hb, hn⟩ := h
          rcases List.mem_cons.1 hb with hbc | hbr
          · subst hbc; rw [hc] at hn; cases hn
          · exact ⟨b, hbr, hn⟩

/-- With an entry for every byte of the input and for `PSEUDO_EOF`, `encode` returns the
concatenated codes; `size` receives the length of the string converted to `int`. -/
theorem encode_ok (signedChar : Bool) (S : List Byte) (E : CodeMap) (makeFile : Bool)
    (hS : ∀ b ∈ S, (E (charCode signedChar b)).isSome = true)
    (hE : (E PSEUDO_EOF).isSome = true) :
    encode signedChar S E makeFile = .ok
      { encodedString :=
          (S.map (fun b => (E (charCode signedChar b)).getD [])).flatten ++
            (E PSEUDO_EOF).getD []
        size :=
          wrapInt32 (((S.map (fun b => (E (charCode signedChar b)).getD [])).flatten ++
            (E PSEUDO_EOF).getD []).length : Int)
        written :=
          if makeFile then
            ((S.map (fun b => (E (charCode signedChar b)).getD [])).flatten ++
              (E PSEUDO_EOF).getD []).map bitOfChar
          else [] } := by
  obtain ⟨p, hp⟩ := Option.isSome_iff_exists.1 hE
  simp only [encode, encodeChars_ok signedChar E S hS, hp, List.nil_append, Option.getD_some]

theorem length_flatten_replicate {α : Type} (n : Nat) (l : List α) :
    (List.replicate n l).flatten.length = n * l.length := by
  induction n with
  | zero => simp
  | succ k ih =>
      rw [List.replicate_succ, List.flatten_cons, List.length_append, ih]
      ring

/-- C8, counterexample: with the code table of the input `"a"` (`a ↦ 0`,
`PSEUDO_EOF ↦ 1`) and an input of `2^31 - 1` bytes `a`, the string returned has `2^31`
bits and `size` receives `-2^31`. -/
theorem encode_spec_counterexample :
    ∃ enc, encode false (List.replicate 2147483647 97) (buildEncodingMap smallTree) false =
        .ok enc ∧
      enc.encodedString.length = 2147483648 ∧ enc.size = -2147483648 ∧
      enc.size ≠ (enc.encodedString.length : Int) := by
  have hS : ∀ b ∈ List.replicate 2147483647 (97 : Byte),
      ((buildEncodingMap smallTree) (charCode false b)).isSome = true := by
    intro b hb
    rw [(List.mem_replicate.1 hb).2]
    decide
  have h := encode_ok false (List.replicate 2147483647 97) (buildEncodingMap smallTree) false
    hS (by decide)
  have h0 : ((buildEncodingMap smallTree) (charCode false 97)).getD [] = ['0'] := by decide
  have h1 : ((buildEncodingMap smallTree) PSEUDO_EOF).getD [] = ['1'] := by decide
  have hl : ((List.map (fun b => ((buildEncodingMap smallTree) (charCode false b)).getD [])
      (List.replicate 2147483647 (97 : Byte))).flatten ++
        ((buildEncodingMap smallTree) PSEUDO_EOF).getD []).length = 2147483648 := by
    rw [List.map_replicate, h0, h1, List.length_append, length_flatten_replicate]
    rfl
  rw [hl] at h
  have hw : wrapInt32 ((2147483648 : Nat) : Int) = -2147483648 := by decide
  rw [hw] at h
  refine ⟨_, h, hl, rfl, ?_⟩
  show (-2147483648 : Int) ≠ _
  rw [hl]
  decide

/-- C8 (encoder), amended: when the code table has an entry for every byte of the input
and for `PSEUDO_EOF`, `encode` returns the codes of the bytes in input order followed by
the code of `PSEUDO_EOF`, stores in `size` the length of that string converted to `int`
(reduced modulo `2^32`), which is the length itself when the string has at most
`2^31 - 1` bits, and with `makeFile` set passes the characters of that string, each as
`bit - '0'` (0 for `'0'`, 1 for `'1'`), to `writeBit` in the same order; without
`makeFile` nothing is written. -/
theorem encode_spec (signedChar : Bool) (S : List Byte) (E : CodeMap) (makeFile : Bool)
    (hS : ∀ b ∈ S, (E (charCode signedChar b)).isSome = true)
    (hE : (E PSEUDO_EOF).isSome = true) :
    ∃ enc, encode signedChar S E makeFile = .ok enc ∧
      enc.encodedString =
        (S.map (fun b => (E (charCode signedChar b)).getD [])).flatten ++
          (E PSEUDO_EOF).getD [] ∧
      enc.size = wrapInt32 (enc.encodedString.length : Int) ∧
      (enc.encodedString.length ≤ 2147483647 →
        enc.size = (enc.encodedString.length : Int)) ∧
      enc.written = (if makeFile then enc.encodedString.map bitOfChar else []) ∧
      bitOfChar '0' = 0 ∧ bitOfChar '1' = 1 := by
  refine ⟨_, encode_ok signedChar S E makeFile hS hE, rfl, rfl, ?_, rfl, by decide, by decide⟩
  intro hle
  apply wrapInt32_of_isInt32
  unfold IsInt32
  simp only [] at hle
  constructor <;> omega

set_option maxRecDepth 10000 in
theorem encode_spec_witness :
    ∃ enc, encode true sampleInput sampleCodes true = .ok enc ∧
      enc.encodedString =
        (sampleInput.map (fun b => (sampleCodes (charCode true b)).getD [])).flatten ++
          (sampleCodes PSEUDO_EOF).getD [] ∧
      enc.size = wrapInt32 (enc.encodedString.length : Int) ∧
      (enc.encodedString.length ≤ 2147483647 →
        enc.size = (enc.encodedString.length : Int)) ∧
      enc.written = (if true then enc.encodedString.map bitOfChar else []) ∧
      bitOfChar '0' = 0 ∧ bitOfChar '1' = 1 :=
  encode_spec true sampleInput sampleCodes true (by decide) (by decide)

/-- C9 (unknown symbol): when some byte of the input has no entry in the code table,
`encode` does not return: the `std::out_of_range` exception of `map::at` leaves the
function, so no string is returned, `size` is not set and no bit is written. -/
theorem encode_unknown_symbol (signedChar : Bool) (S : List Byte) (E : CodeMap)
    (makeFile : Bool) (h : ∃ b ∈ S, E (charCode signedChar b) = none) :
    encode signedChar S E makeFile = .error .outOfRange := by
  simp only [encode, encodeChars_error signedChar E S h]

theorem encode_unknown_symbol_witness :
    encode true [97, 100] sampleCodes true = .error .outOfRange :=
  encode_unknown_symbol true [97, 100] sampleCodes true ⟨100, by decide, by decide⟩

/-! ## The decoder -/

theorem codes_path_ne_nil (c n : Int) (z o : HuffmanNode) (h : ¬ (z = .nil ∧ o = .nil)) :
    ∀ e ∈ codes (.node c n z o), e.2 ≠ [] := by
  intro e he
  simp only [codes, if_neg h, List.mem_append, List.mem_map] at he
  rcases he with ⟨a, _, rfl⟩ | ⟨a, _, rfl⟩ <;> simp

theorem full_children (c n : Int) (z o : HuffmanNode) (h : ¬ (z = .nil ∧ o = .nil))
    (hf : (HuffmanNode.node c n z o).full = true) : z.full = true ∧ o.full = true := by
  simp only [HuffmanNode.full, if_neg h, Bool.and_eq_true] at hf
  exact hf

theorem decodeLoop_code (eofBit : Int) (root : HuffmanNode) :
    ∀ (cur : HuffmanNode), cur.full = true → ∀ e ∈ codes cur, e.2 ≠ [] →
      ∀ (fuel : Nat) (rest : List Int) (result : List Byte),
        decodeLoop eofBit root (fuel + e.2.length) (e.2.map bitOfChar ++ rest) cur result =
          if e.1 = PSEUDO_EOF then .ok result
          else decodeLoop eofBit root fuel rest root (result ++ [toByte e.1]) := by
  intro cur
  induction cur with
  | nil => intro hf; simp [HuffmanNode.full] at hf
  | node c n z o ihz iho =>
      intro hf e he hne fuel rest result
      by_cases h : z = .nil ∧ o = .nil
      · simp only [codes, if_pos h, List.mem_singleton] at he
        rw [he] at hne
        exact absurd rfl hne
      · obtain ⟨hfz, hfo⟩ := full_children c n z o h hf
        simp only [codes, if_neg h, List.mem_append, List.mem_map] at he
        rcases he with ⟨a, ha, rfl⟩ | ⟨a, ha, rfl⟩
        · simp only [List.length_cons, List.map_cons, List.cons_append]
          have hb : bitOfChar '0' = 0 := by decide
          rw [hb, ← Nat.add_assoc]
          cases z with
          | nil => simp [HuffmanNode.full] at hfz
          | node zc zn zz zo =>
              simp only [decodeLoop, readBit, if_true]
              by_cases hl : zz = .nil ∧ zo = .nil
              · simp only [codes, if_pos hl, List.mem_singleton] at ha
                subst ha
                simp only [if_pos hl, List.length_nil, Nat.add_zero, List.map_nil,
                  List.nil_append]
              · simp only [if_neg hl]
                exact ihz hfz a ha (codes_path_ne_nil zc zn zz zo hl a ha) fuel rest result
        · simp only [List.length_cons, List.map_cons, List.cons_append]
          have hb : bitOfChar '1' = 1 := by decide
          rw [hb, ← Nat.add_assoc]
          cases o with
          | nil => simp [HuffmanNode.full] at hfo
          | node oc ocn oz oo =>
              simp only [decodeLoop, readBit, one_ne_zero, if_false]
              by_cases hl : oz = .nil ∧ oo = .nil
              · simp only [codes, if_pos hl, List.mem_singleton] at ha
                subst ha
                simp only [if_pos hl, List.length_nil, Nat.add_zero, List.map_nil,
                  List.nil_append]
              · simp only [if_neg hl]
                exact iho hfo a ha (codes_path_ne_nil oc ocn oz oo hl a ha) fuel rest result

/-- Decoding the codes of a sequence of bytes, none of which is the sentinel, puts the
decoder back at the root with the bytes appended to the result. -/
theorem decodeLoop_bytes (eofBit : Int) (signedChar : Bool) (root : HuffmanNode)
    (hf : root.full = true) (code : Byte → List Char) (S : List Byte)
    (hc : ∀ b ∈ S, (charCode signedChar b, code b) ∈ codes root ∧ code b ≠ []) :
    ∀ (fuel : Nat) (rest : List Int) (result : List Byte),
      decodeLoop eofBit root (fuel + ((S.map code).flatten).length)
          (((S.map code).flatten).map bitOfChar ++ rest) root result =
        decodeLoop eofBit root fuel rest root (result ++ S) := by
  induction S with
  | nil => intro fuel rest result; simp
  | cons b bs ih =>
      intro fuel rest result
      obtain ⟨hm, hn⟩ := hc b (List.mem_cons_self _ _)
      have h1 := decodeLoop_code eofBit root root hf _ hm hn
        (fuel + ((bs.map code).flatten).length)
        (((bs.map code).flatten).map bitOfChar ++ rest) result
      simp only [if_neg (charCode_ne_PSEUDO_EOF signedChar b), toByte_charCode] at h1
      simp only [List.map_cons, List.flatten_cons, List.length_append, List.map_append,
        List.append_assoc]
      have : fuel + ((code b).length + ((bs.map code).flatten).length) =
          fuel + ((bs.map code).flatten).length + (code b).length := by omega
      rw [this, h1, ih (fun b1 hb1 => hc b1 (List.mem_cons_of_mem _ hb1))]
      simp

/-- Decoding a payload: the codes of the bytes, then the code of `PSEUDO_EOF`, then
anything. -/
theorem decodeLoop_payload (eofBit : Int) (signedChar : Bool) (root : HuffmanNode)
    (hf : root.full = true) (code : Byte → List Char) (eofCode : List Char) (S : List Byte)
    (hc : ∀ b ∈ S, (charCode signedChar b, code b) ∈ codes root ∧ code b ≠ [])
    (he : (PSEUDO_EOF, eofCode) ∈ codes root) (hen : eofCode ≠ [])
    (fuel : Nat) (rest : List Int)
    (hfuel : ((S.map code).flatten ++ eofCode).length ≤ fuel) :
    decode eofBit fuel (((S.map code).flatten ++ eofCode).map bitOfChar ++ rest) root =
      .ok S := by
  unfold decode
  obtain ⟨k, hk⟩ : ∃ k, fuel = k + eofCode.length + ((S.map code).flatten).length := by
    refine ⟨fuel - ((S.map code).flatten ++ eofCode).length, ?_⟩
    simp only [List.length_append] at hfuel ⊢
    omega
  rw [hk, List.map_append, List.append_assoc,
    decodeLoop_bytes eofBit signedChar root hf code S hc]
  have h1 := decodeLoop_code eofBit root root hf _ he hen k rest ([] ++ S)
  simp only [if_true] at h1
  rw [h1]
  simp

/-! ## Encoding, then decoding -/

theorem codes_path_ne_nil_of_two (T : HuffmanNode) (a b : Int) (hab : a ≠ b)
    (ha : a ∈ (codes T).map Prod.fst) (hb : b ∈ (codes T).map Prod.fst) :
    ∀ e ∈ codes T, e.2 ≠ [] := by
  cases T with
  | nil => simp [codes] at ha
  | node c n z o =>
      by_cases h : z = .nil ∧ o = .nil
      · simp only [codes, if_pos h, List.map_cons, List.map_nil, List.mem_singleton] at ha hb
        exact absurd (ha.trans hb.symm) hab
      · exact codes_path_ne_nil c n z o h

/-- The pipeline of `compress` up to the encoder, and the decoder run on the bits
written followed by any further bits: for a non-empty input the decoder returns the
input. -/
theorem roundtrip_core (P : PriorityQueue) (hP : P.Lawful) (signedChar : Bool)
    (S : List Byte) (hS : S ≠ []) :
    ∃ M T enc, buildFrequencyMap signedChar S hashmap.ctor = .ok M ∧
      buildEncodingTree P M = .ok T ∧
      encode signedChar S (buildEncodingMap T) true = .ok enc ∧
      enc.written = enc.encodedString.map bitOfChar ∧
      T.full = true ∧ T.isLeaf = false ∧
      ∀ (eofBit : Int) (fuel : Nat) (rest : List Int), enc.written.length ≤ fuel →
        decode eofBit fuel (enc.written ++ rest) T = .ok S := by
  obtain ⟨M, hM, hr, _, hkeys, _, _, _⟩ := buildFrequencyMap_ok signedChar S
  have hw := WF_of_reachable M hr
  have hEk : PSEUDO_EOF ∈ M.keys := (hkeys PSEUDO_EOF).2 (Or.inl rfl)
  have hne : M.keys ≠ [] := by
    intro h; rw [h] at hEk; simp at hEk
  obtain ⟨T, hT, _, hfull, hperm⟩ := buildEncodingTree_leaves P hP M hw hne
  have hck : ((codes T).map Prod.fst).Perm M.keys := by
    rw [codes_keys, keys_eq]; exact hperm.map Prod.fst
  have hn : ((codes T).map Prod.fst).Nodup := (hck.nodup_iff).2 (keys_nodup M hw)
  have hmem : ∀ k, k ∈ M.keys → ∃ p, buildEncodingMap T k = some p ∧ (k, p) ∈ codes T := by
    intro k hk
    obtain ⟨e, he, hfe⟩ := List.mem_map.1 (hck.mem_iff.2 hk)
    refine ⟨e.2, ?_, ?_⟩
    · rw [← hfe]; exact buildEncodingMap_of_mem T hn e he
    · rw [← hfe]; exact he
  obtain ⟨b0, hb0⟩ := List.exists_mem_of_ne_nil S hS
  have hpath : ∀ e ∈ codes T, e.2 ≠ [] :=
    codes_path_ne_nil_of_two T (charCode signedChar b0) PSEUDO_EOF
      (charCode_ne_PSEUDO_EOF signedChar b0)
      (hck.mem_iff.2 ((hkeys _).2 (Or.inr ⟨b0, hb0, rfl⟩))) (hck.mem_iff.2 hEk)
  have hbyte : ∀ b ∈ S, (buildEncodingMap T (charCode signedChar b)).isSome = true ∧
      (charCode signedChar b, (buildEncodingMap T (charCode signedChar b)).getD []) ∈ codes T := by
    intro b hb
    obtain ⟨p, hp1, hp2⟩ := hmem _ ((hkeys _).2 (Or.inr ⟨b, hb, rfl⟩))
    rw [hp1]; exact ⟨rfl, hp2⟩
  obtain ⟨pE, hE1, hE2⟩ := hmem _ hEk
  have henc := encode_ok signedChar S (buildEncodingMap T) true
    (fun b hb => (hbyte b hb).1) (by rw [hE1]; rfl)
  refine ⟨M, T, _, hM, hT, henc, by simp, hfull, ?_, ?_⟩
  · cases T with
    | nil => rfl
    | node c n z o =>
        cases z with
        | nil =>
            cases o with
            | nil =>
                exact absurd rfl (hpath (c, []) (by simp [codes]))
            | node _ _ _ _ => rfl
        | node _ _ _ _ => rfl
  intro eofBit fuel rest hfuel
  simp only [if_true, hE1, Option.getD_some, List.length_map] at hfuel ⊢
  exact decodeLoop_payload eofBit signedChar T hfull
    (fun b => (buildEncodingMap T (charCode signedChar b)).getD []) pE S
    (fun b hb => ⟨(hbyte b hb).2, hpath _ (hbyte b hb).2⟩) hE2 (hpath _ hE2) fuel rest hfuel

/-- C1 (round trip): for every priority queue that obeys the queue laws and every
non-empty byte sequence `S`, the frequency map `M` of `S` on a fresh map, the tree `T`
built from `M` and the code table of `T` exist, `encode` returns, and `decode` run with
`T` on the bits written by `encode` returns exactly `S`, for every number of loop
rounds allowed that is at least the number of bits. -/
theorem decode_encode_roundtrip (P : PriorityQueue) (hP : P.Lawful) (signedChar : Bool)
    (eofBit : Int) (S : List Byte) (hS : S ≠ []) :
    ∃ M T enc, buildFrequencyMap signedChar S hashmap.ctor = .ok M ∧
      buildEncodingTree P M = .ok T ∧
      encode signedChar S (buildEncodingMap T) true = .ok enc ∧
      ∀ fuel, enc.written.length ≤ fuel → decode eofBit fuel enc.written T = .ok S := by
  obtain ⟨M, T, enc, h1, h2, h3, _, _, _, h5⟩ := roundtrip_core P hP signedChar S hS
  refine ⟨M, T, enc, h1, h2, h3, ?_⟩
  intro fuel hfuel
  have := h5 eofBit fuel [] hfuel
  rwa [List.append_nil] at this

theorem decode_encode_roundtrip_witness :
    ∃ M T enc, buildFrequencyMap true sampleInput hashmap.ctor = .ok M ∧
      buildEncodingTree listQueue M = .ok T ∧
      encode true sampleInput (buildEncodingMap T) true = .ok enc ∧
      ∀ fuel, enc.written.length ≤ fuel → decode (-1) fuel enc.written T = .ok sampleInput :=
  decode_encode_roundtrip listQueue listQueue_lawful true (-1) sampleInput (by decide)

/-! ## The decoder on a truncated stream -/

/-- An exhausted bit source is read as an endless run of `eofBit`. -/
theorem decodeLoop_exhausted (eofBit : Int) (root : HuffmanNode) :
    ∀ (fuel n : Nat) (input : List Int) (cur : HuffmanNode) (result : List Byte),
      fuel ≤ n →
      decodeLoop eofBit root fuel input cur result =
        decodeLoop eofBit root fuel (input ++ List.replicate n eofBit) cur result := by
  intro fuel
  induction fuel with
  | zero => intro n input cur result _; rfl
  | succ fuel ih =>
      intro n input cur result hn
      cases n with
      | zero => omega
      | succ n =>
        cases input with
        | nil =>
            have h1 := ih n [] root
            have h2 := ih n [] 
            simp only [List.nil_append] at h1 h2
            simp only [decodeLoop, readBit, List.nil_append, List.replicate_succ]
            cases cur with
            | nil => rfl
            | node c cn z o =>
                simp only []
                cases (if eofBit = 0 then z else o) with
                | nil => rfl
                | node ch cnt z1 o1 =>
                    simp only []
                    rw [h1 _ (by omega), h2 (.node ch cnt z1 o1) result (by omega)]
        | cons b bs =>
            have h1 := ih (n + 1) bs root
            have h2 := ih (n + 1) bs
            simp only [decodeLoop, readBit, List.cons_append]
            cases cur with
            | nil => rfl
            | node c cn z o =>
                simp only []
                cases (if b = 0 then z else o) with
                | nil => rfl
                | node ch cnt z1 o1 =>
                    simp only []
                    rw [h1 _ (by omega), h2 (.node ch cnt z1 o1) result (by omega)]

theorem isLeaf_eq_false_iff (c n : Int) (z o : HuffmanNode) :
    (HuffmanNode.node c n z o).isLeaf = false ↔ ¬ (z = .nil ∧ o = .nil) := by
  cases z <;> cases o <;> simp [HuffmanNode.isLeaf]

/-- On a full tree with an internal root the loop of `decode` raises no fault: it
returns, or it is still running when the rounds allowed are used up. -/
theorem decodeLoop_no_fault (eofBit : Int) (root : HuffmanNode) (hroot : root.full = true)
    (hint : root.isLeaf = false) :
    ∀ (fuel : Nat) (input : List Int) (cur : HuffmanNode) (result : List Byte),
      cur.full = true → cur.isLeaf = false →
      (∃ out, decodeLoop eofBit root fuel input cur result = .ok out) ∨
        decodeLoop eofBit root fuel input cur result = .error .outOfFuel := by
  intro fuel
  induction fuel with
  | zero => intro input cur result _ _; exact Or.inr rfl
  | succ fuel ih =>
      intro input cur result hf hl
      cases cur with
      | nil => simp [HuffmanNode.full] at hf
      | node c n z o =>
          have hnl := (isLeaf_eq_false_iff c n z o).1 hl
          obtain ⟨hfz, hfo⟩ := full_children c n z o hnl hf
          have hnext : (if (readBit eofBit input).1 = 0 then z else o).full = true := by
            split
            · exact hfz
            · exact hfo
          simp only [decodeLoop]
          cases hx : (if (readBit eofBit input).1 = 0 then z else o) with
          | nil => rw [hx] at hnext; simp [HuffmanNode.full] at hnext
          | node ch cnt z1 o1 =>
              rw [hx] at hnext
              simp only []
              by_cases hleaf : z1 = .nil ∧ o1 = .nil
              · rw [if_pos hleaf]
                by_cases he : ch = PSEUDO_EOF
                · rw [if_pos he]; exact Or.inl ⟨result, rfl⟩
                · rw [if_neg he]; exact ih _ root _ hroot hint
              · rw [if_neg hleaf]
                exact ih _ _ _ hnext ((isLeaf_eq_false_iff ch cnt z1 o1).2 hleaf)

/-- C10, as stated, fails: for the input `"a"` the payload is `01`; on its proper prefix
of length 0, which ends before the code of `PSEUDO_EOF`, the decoder reads the
end-of-stream value `-1` as a one-bit, reaches the `PSEUDO_EOF` leaf and returns the
empty output instead of failing. -/
theorem decode_truncated_counterexample :
    buildFrequencyMap true [97] hashmap.ctor = .ok smallMap ∧
    buildEncodingTree listQueue smallMap = .ok smallTree ∧
    encode true [97] (buildEncodingMap smallTree) true =
      .ok { encodedString := ['0', '1'], size := 2, written := [0, 1] } ∧
    decode (-1) 1 (List.take 0 [0, 1]) smallTree = .ok [] := by
  decide

/-- C10, amended: `decode` has no check for an exhausted bit source.  For every
priority queue that obeys the queue laws, every non-empty input and every proper prefix
of the bits written by `encode`, the decoder run on the prefix raises no error: it
returns an output or is still running when the rounds allowed are used up, and it
behaves exactly as on the prefix followed by the end-of-stream value of the bit source
repeated (any value other than 0 selects the one-branch). -/
theorem decode_truncated (P : PriorityQueue) (hP : P.Lawful) (signedChar : Bool)
    (eofBit : Int) (S : List Byte) (hS : S ≠ []) :
    ∃ M T enc, buildFrequencyMap signedChar S hashmap.ctor = .ok M ∧
      buildEncodingTree P M = .ok T ∧
      encode signedChar S (buildEncodingMap T) true = .ok enc ∧
      ∀ (k fuel : Nat), k < enc.written.length →
        ((∃ out, decode eofBit fuel (enc.written.take k) T = .ok out) ∨
          decode eofBit fuel (enc.written.take k) T = .error .outOfFuel) ∧
        decode eofBit fuel (enc.written.take k) T =
          decode eofBit fuel (enc.written.take k ++ List.replicate fuel eofBit) T := by
  obtain ⟨M, T, enc, h1, h2, h3, _, hfull, hint, _⟩ := roundtrip_core P hP signedChar S hS
  refine ⟨M, T, enc, h1, h2, h3, ?_⟩
  intro k fuel _
  exact ⟨decodeLoop_no_fault eofBit T hfull hint fuel _ T [] hfull hint,
    decodeLoop_exhausted eofBit T fuel fuel _ T [] (Nat.le_refl _)⟩

theorem decode_truncated_witness :
    ∃ M T enc, buildFrequencyMap true sampleInput hashmap.ctor = .ok M ∧
      buildEncodingTree listQueue M = .ok T ∧
      encode true sampleInput (buildEncodingMap T) true = .ok enc ∧
      ∀ (k fuel : Nat), k < enc.written.length →
        ((∃ out, decode (-1) fuel (enc.written.take k) T = .ok out) ∨
          decode (-1) fuel (enc.written.take k) T = .error .outOfFuel) ∧
        decode (-1) fuel (enc.written.take k) T =
          decode (-1) fuel (enc.written.take k ++ List.replicate fuel (-1)) T :=
  decode_truncated listQueue listQueue_lawful true (-1) sampleInput (by decide)

/-! ## Printing and reading integers -/

theorem digitChar_toNat (d : Nat) (h : d < 10) : (digitChar d).toNat = 48 + d := by
  interval_cases d <;> rfl

theorem natDigits_spec :
    ∀ (fuel n : Nat), n < fuel →
      (∀ c ∈ natDigits fuel n, 48 ≤ c.toNat ∧ c.toNat ≤ 57) ∧ natDigits fuel n ≠ [] := by
  intro fuel
  induction fuel with
  | zero => intro n h; omega
  | succ fuel ih =>
      intro n hn
      by_cases h10 : n < 10
      · simp only [natDigits, if_pos h10, List.mem_singleton, forall_eq, ne_eq,
          List.cons_ne_nil, not_false_eq_true, and_true]
        rw [digitChar_toNat n h10]; omega
      · obtain ⟨h1, _⟩ := ih (n / 10) (by omega)
        simp only [natDigits, if_neg h10, List.mem_append, List.mem_singleton, ne_eq,
          List.append_eq_nil, List.cons_ne_nil, and_false, not_false_eq_true, and_true]
        rintro c (hc | hc)
        · exact h1 c hc
        · rw [hc, digitChar_toNat _ (Nat.mod_lt _ (by decide))]
          have := Nat.mod_lt n (by decide : 0 < 10)
          omega

theorem atoiDigits_append (l : List Char) (hl : ∀ c ∈ l, 48 ≤ c.toNat ∧ c.toNat ≤ 57) :
    ∀ (acc : Nat) (l1 : List Char),
      atoiDigits acc (l ++ l1) = atoiDigits (atoiDigits acc l) l1 := by
  induction l with
  | nil => intro acc l1; rfl
  | cons c cs ih =>
      intro acc l1
      have hc := hl c (List.mem_cons_self _ _)
      simp only [List.cons_append, atoiDigits, if_pos hc]
      exact ih (fun c1 h1 => hl c1 (List.mem_cons_of_mem _ h1)) _ _

theorem atoiDigits_natDigits :
    ∀ (fuel n : Nat), n < fuel → atoiDigits 0 (natDigits fuel n) = n := by
  intro fuel
  induction fuel with
  | zero => intro n h; omega
  | succ fuel ih =>
      intro n hn
      by_cases h10 : n < 10
      · have hd := digitChar_toNat n h10
        have hc : 48 ≤ 48 + n ∧ 48 + n ≤ 57 := by omega
        simp only [natDigits, if_pos h10, atoiDigits, hd, if_pos hc]
        omega
      · have hlt : n / 10 < fuel := by omega
        have hm := Nat.mod_lt n (by decide : 0 < 10)
        have hd := digitChar_toNat (n % 10) hm
        have hc : 48 ≤ 48 + n % 10 ∧ 48 + n % 10 ≤ 57 := by omega
        simp only [natDigits, if_neg h10]
        rw [atoiDigits_append _ (natDigits_spec fuel (n / 10) hlt).1, ih (n / 10) hlt]
        simp only [atoiDigits, hd, if_pos hc]
        omega

theorem natDigits_length :
    ∀ (fuel k n : Nat), n < 10 ^ (k + 1) → (natDigits fuel n).length ≤ k + 1 := by
  intro fuel
  induction fuel with
  | zero => intro k n _; simp [natDigits]
  | succ fuel ih =>
      intro k n hn
      by_cases h10 : n < 10
      · simp [natDigits, h10]
      · simp only [natDigits, if_neg h10, List.length_append, List.length_singleton]
        cases k with
        | zero => simp at hn; omega
        | succ k =>
            have : n / 10 < 10 ^ (k + 1) := by
              rw [Nat.div_lt_iff_lt_mul (by decide)]
              calc n < 10 ^ (k + 1 + 1) := hn
                _ = 10 ^ (k + 1) * 10 := by rw [pow_succ]
            have := ih k (n / 10) this
            omega

theorem intToText_chars (i : Int) :
    ∀ c ∈ intToText i, c = '-' ∨ (48 ≤ c.toNat ∧ c.toNat ≤ 57) := by
  intro c hc
  unfold intToText at hc
  have hd := (natDigits_spec (i.natAbs + 1) i.natAbs (by omega)).1
  split at hc
  · rcases List.mem_cons.1 hc with h | h
    · exact Or.inl h
    · exact Or.inr (hd c h)
  · exact Or.inr (hd c hc)

theorem intToText_ne_nil (i : Int) : intToText i ≠ [] := by
  unfold intToText
  have := (natDigits_spec (i.natAbs + 1) i.natAbs (by omega)).2
  split
  · simp
  · exact this

theorem intToText_length (i : Int) (h : IsInt32 i) : (intToText i).length ≤ 11 := by
  unfold IsInt32 at h
  have hl := natDigits_length (i.natAbs + 1) 9 i.natAbs (by norm_num; omega)
  unfold intToText
  split
  · simp only [List.length_cons]; omega
  · omega

theorem isSpace_false_of_digit (c : Char) (h : c = '-' ∨ (48 ≤ c.toNat ∧ c.toNat ≤ 57)) :
    isSpace c = false := by
  rcases h with h | h
  · subst h; decide
  · unfold isSpace
    have h1 : c ≠ ' ' := by intro hc; subst hc; revert h; decide
    have h2 : c ≠ '\t' := by intro hc; subst hc; revert h; decide
    have h3 : c ≠ '\n' := by intro hc; subst hc; revert h; decide
    have h4 : c ≠ '\x0b' := by intro hc; subst hc; revert h; decide
    have h5 : c ≠ '\x0c' := by intro hc; subst hc; revert h; decide
    have h6 : c ≠ '\r' := by intro hc; subst hc; revert h; decide
    simp [h1, h2, h3, h4, h5, h6]

theorem atoi_intToText (i : Int) (h : IsInt32 i) : atoi (intToText i) = i := by
  have hne := intToText_ne_nil i
  have hch := intToText_chars i
  unfold atoi
  cases ht : intToText i with
  | nil => exact absurd ht hne
  | cons c cs =>
      have hc := hch c (by rw [ht]; exact List.mem_cons_self _ _)
      have hsp := isSpace_false_of_digit c hc
      rw [List.dropWhile_cons_of_neg (by simp [hsp])]
      have hfuel : i.natAbs < i.natAbs + 1 := by omega
      unfold intToText at ht
      by_cases hneg : i < 0
      · rw [if_pos hneg] at ht
        injection ht with h1 h2
        subst h1
        simp only [atoiSigned, if_true]
        rw [← h2, atoiDigits_natDigits _ _ hfuel]
        have : -((i.natAbs : Nat) : Int) = i := by omega
        rw [this]
        exact wrapInt32_of_isInt32 i h
      · rw [if_neg hneg] at ht
        have hd := (natDigits_spec _ _ hfuel).1 c (by rw [ht]; exact List.mem_cons_self _ _)
        have hm : c ≠ '-' := by intro hc; subst hc; revert hd; decide
        have hp : c ≠ '+' := by intro hc; subst hc; revert hd; decide
        simp only [atoiSigned, if_neg hm, if_neg hp]
        rw [← ht, atoiDigits_natDigits _ _ hfuel]
        have : ((i.natAbs : Nat) : Int) = i := by omega
        rw [this]
        exact wrapInt32_of_isInt32 i h

/-! ## Writing a map and reading it back -/

theorem writeEntries_spec (M : hashmap) (es : List (Int × Int))
    (hg : ∀ e ∈ es, M.get e.1 = .ok e.2) :
    writeEntries M (es.map Prod.fst) = .ok (entriesText es) := by
  induction es with
  | nil => rfl
  | cons e rest ih =>
      have he := hg e (List.mem_cons_self _ _)
      have hr := ih (fun e1 h1 => hg e1 (List.mem_cons_of_mem _ h1))
      simp only [List.map_cons, writeEntries, he, hr, entriesText, entryText,
        List.map_eq_nil_iff]

theorem indexOf_colon (A B : List Char) (h : ':' ∉ A) :
    (A ++ ':' :: B).indexOf ':' = A.length := by
  induction A with
  | nil => simp [List.indexOf_cons]
  | cons a as ih =>
      simp only [List.mem_cons, not_or] at h
      have ha : a ≠ ':' := fun x => h.1 x.symm
      have hb : (a == ':') = false := by simpa using ha
      simp only [List.cons_append, List.indexOf_cons, List.length_cons, hb, cond_false,
        ih h.2]

theorem intToText_no_colon (i : Int) : ':' ∉ intToText i := by
  intro h
  rcases intToText_chars i ':' h with h1 | h1
  · revert h1; decide
  · revert h1; decide

theorem putEntry_entryText (e : Int × Int) (h1 : IsInt32 e.1) (h2 : IsInt32 e.2)
    (m : hashmap) : putEntry (entryText e) m = m.put e.1 e.2 := by
  have hA := intToText_no_colon e.1
  have hlenA := intToText_length e.1 h1
  have hlenB := intToText_length e.2 h2
  have hne : entryText e ≠ [] := by
    unfold entryText
    simp [intToText_ne_nil]
  have hfind : findColon (entryText e) = some (intToText e.1).length := by
    unfold findColon entryText
    rw [if_pos (by simp)]
    simp only [List.append_assoc, List.singleton_append]
    rw [indexOf_colon _ _ hA]
  have hs1 : substr (entryText e) 0 (intToText e.1).length = intToText e.1 := by
    unfold substr entryText
    simp only [List.drop_zero, List.append_assoc]
    exact List.take_left' rfl
  have hs2 : substr (entryText e) ((intToText e.1).length + 1) ((entryText e).length - 1) =
      intToText e.2 := by
    unfold substr entryText
    have hd : List.drop ((intToText e.1).length + 1)
        (intToText e.1 ++ [':'] ++ intToText e.2) = intToText e.2 :=
      List.drop_left' (by simp)
    rw [hd]
    apply List.take_of_length_le
    simp only [List.length_append, List.length_singleton]
    omega
  unfold putEntry
  rw [if_neg hne]
  simp only [hfind, hs1, hs2]
  rw [if_neg (by omega)]
  rw [atoi_intToText e.1 h1, atoi_intToText e.2 h2]

theorem extractLoop_scan (tok : List Char) (h : ∀ c ∈ tok, c ≠ ',' ∧ c ≠ '}') :
    ∀ (rest acc : List Char) (m : hashmap),
      extractLoop (tok ++ rest) false acc m = extractLoop rest false (acc ++ tok) m := by
  induction tok with
  | nil => intro rest acc m; simp
  | cons c cs ih =>
      intro rest acc m
      obtain ⟨h1, h2⟩ := h c (List.mem_cons_self _ _)
      have := ih (fun c1 hc1 => h c1 (List.mem_cons_of_mem _ hc1)) rest (acc ++ [c]) m
      simp only [List.cons_append, extractLoop, if_neg h1, if_neg h2]
      rw [List.append_assoc, List.singleton_append] at this
      exact this

theorem entryText_chars (e : Int × Int) : ∀ c ∈ entryText e, c ≠ ',' ∧ c ≠ '}' := by
  intro c hc
  unfold entryText at hc
  simp only [List.mem_append, List.mem_singleton] at hc
  have key : ∀ i, c ∈ intToText i → c ≠ ',' ∧ c ≠ '}' := by
    intro i hi
    rcases intToText_chars i c hi with h | h
    · subst h; decide
    · constructor <;> (intro hx; subst hx; revert h; decide)
  rcases hc with (hc | hc) | hc
  · exact key _ hc
  · subst hc; decide
  · exact key _ hc

theorem extractLoop_entries (es : List (Int × Int))
    (hi : ∀ e ∈ es, IsInt32 e.1 ∧ IsInt32 e.2) :
    ∀ (m : hashmap) (tail : List Char),
      extractLoop (entriesText es ++ '}' :: tail) false [] m =
        match putAll es m with
        | .ok m1 => .ok (m1, tail)
        | .error x => .error x := by
  induction es with
  | nil =>
      intro m tail
      simp [entriesText, extractLoop, putEntry, putAll]
  | cons e rest ih =>
      intro m tail
      obtain ⟨h1, h2⟩ := hi e (List.mem_cons_self _ _)
      have hr := ih (fun e1 he1 => hi e1 (List.mem_cons_of_mem _ he1))
      by_cases hrest : rest = []
      · subst hrest
        simp only [entriesText, if_true, List.append_nil, putAll]
        rw [extractLoop_scan _ (entryText_chars e)]
        simp only [extractLoop, List.nil_append, if_true, putEntry_entryText e h1 h2]
        rw [if_neg (by decide)]
        cases m.put e.1 e.2 <;> rfl
      · simp only [entriesText, if_neg hrest, List.append_assoc, putAll]
        rw [extractLoop_scan _ (entryText_chars e)]
        simp only [List.cons_append, List.nil_append, extractLoop, if_true,
          putEntry_entryText e h1 h2]
        cases hp : m.put e.1 e.2 with
        | error x => rfl
        | ok m1 =>
            simp only []
            exact hr m1 tail

/-! ## Putting the pairs of a map into a fresh map rebuilds the map -/

theorem slot_of_home (e : Int × Int) (i : Nat)
    (h : Int.tmod (hashFunction e.1) 10 = (i : Int)) : slot e.1 = i := by
  unfold slot; omega

theorem filter_flatten_home (l : List Chain) :
    ∀ (off i : Nat), (∀ j c, l[j]? = some c → ∀ e ∈ c, slot e.1 = off + j) →
      (l.flatten).filter (fun e => decide (slot e.1 = i)) =
        if off ≤ i then (l[i - off]?).getD [] else [] := by
  induction l with
  | nil => intro off i _; simp
  | cons x xs ih =>
      intro off i h
      have hx : ∀ e ∈ x, slot e.1 = off := by
        intro e he
        have := h 0 x (by simp) e he
        simpa using this
      have hxs := ih (off + 1) i (by
        intro j c hj e he
        have := h (j + 1) c (by simpa using hj) e he
        omega)
      simp only [List.flatten_cons, List.filter_append, hxs]
      by_cases h1 : off = i
      · subst h1
        have : List.filter (fun e => decide (slot e.1 = off)) x = x := by
          rw [List.filter_eq_self]
          intro e he
          simp [hx e he]
        simp [this]
      · have : List.filter (fun e => decide (slot e.1 = i)) x = [] := by
          rw [List.filter_eq_nil_iff]
          intro e he
          simp [hx e he, h1]
        rw [this, List.nil_append]
        by_cases h2 : off ≤ i
        · have h3 : off + 1 ≤ i := by omega
          rw [if_pos h2, if_pos h3]
          have : i - off = (i - (off + 1)) + 1 := by omega
          rw [this, List.getElem?_cons_succ]
        · have h3 : ¬ off + 1 ≤ i := by omega
          rw [if_neg h2, if_neg h3]

theorem putAll_buckets (L : List (Int × Int)) :
    ∀ (m0 : hashmap), m0.WF → (∀ e ∈ L, ValidKey e.1) → (L.map Prod.fst).Nodup →
      (∀ e ∈ L, m0.lookup e.1 = none) →
      ∃ m1, putAll L m0 = .ok m1 ∧ m1.WF ∧
        m1.nElems = m0.nElems + (L.length : Int) ∧
        ∀ i, i < 10 → m1.buckets[i]? =
          some ((m0.buckets[i]?).getD [] ++ L.filter (fun e => decide (slot e.1 = i))) := by
  induction L with
  | nil =>
      intro m0 hw _ _ _
      refine ⟨m0, rfl, hw, by simp, ?_⟩
      intro i hi
      have hlt : i < m0.buckets.length := by rw [hw.length_eq]; exact hi
      simp [List.getElem?_eq_getElem hlt]
  | cons e rest ih =>
      intro m0 hw hv hn hl
      have hve := hv e (List.mem_cons_self _ _)
      obtain ⟨c, hc, hp⟩ := put_of_valid m0 hw e.1 e.2 hve
      have hle := hl e (List.mem_cons_self _ _)
      rw [lookup_eq m0 e.1 c hc, chainGet_eq_none_iff] at hle
      rw [chainPut_of_not_mem e.1 e.2 c hle] at hp
      simp only [if_true] at hp
      have hw1 := WF_put m0 _ hw e.1 e.2 hp
      have hlk := lookup_put m0 _ hw e.1 e.2 hp
      simp only [List.map_cons, List.nodup_cons] at hn
      obtain ⟨m1, g1, g2, g3, g4⟩ := ih _ hw1
        (fun e1 h1 => hv e1 (List.mem_cons_of_mem _ h1)) hn.2
        (by
          intro e1 h1
          rw [hlk e1.1]
          have : e1.1 ≠ e.1 := by
            intro heq
            exact hn.1 (List.mem_map.2 ⟨e1, h1, heq⟩)
          rw [if_neg this]
          exact hl e1 (List.mem_cons_of_mem _ h1))
      refine ⟨m1, ?_, g2, ?_, ?_⟩
      · simp only [putAll, hp]; exact g1
      · rw [g3]; simp only [List.length_cons]; push_cast; ring
      · intro i hi
        rw [g4 i hi]
        simp only []
        have hlt : slot e.1 < m0.buckets.length := by rw [hw.length_eq]; exact slot_lt e.1
        by_cases hs : slot e.1 = i
        · subst hs
          rw [List.getElem?_set_self hlt, hc]
          simp [List.filter_cons]
        · rw [List.getElem?_set_ne hs]
          simp [List.filter_cons, hs]

theorem putAll_entries (M : hashmap) (hw : M.WF) : putAll M.entries hashmap.ctor = .ok M := by
  have hv : ∀ e ∈ M.entries, ValidKey e.1 := fun e he => valid_of_mem_entries M hw e he
  obtain ⟨m1, g1, g2, g3, g4⟩ := putAll_buckets M.entries hashmap.ctor WF_ctor hv
    (entries_keys_nodup M hw) (fun e _ => lookup_ctor e.1)
  rw [g1]
  have hb : m1.buckets = M.buckets := by
    apply List.ext_getElem?
    intro i
    by_cases hi : i < 10
    · rw [g4 i hi]
      have h0 : hashmap.ctor.buckets[i]? = some [] := by
        show (List.replicate 10 ([] : Chain))[i]? = some []
        rw [List.getElem?_replicate, if_pos hi]
      rw [h0, entries_eq M hw]
      simp only [Option.getD_some, List.nil_append]
      rw [filter_flatten_home M.buckets 0 i (by
        intro j c hj e he
        rw [slot_of_home e j (hw.home j c hj e he)]; omega)]
      have hlt : i < M.buckets.length := by rw [hw.length_eq]; exact hi
      simp [List.getElem?_eq_getElem hlt]
    · rw [List.getElem?_eq_none (by rw [g2.length_eq]; omega),
        List.getElem?_eq_none (by rw [hw.length_eq]; omega)]
  have hn : m1.nBuckets = M.nBuckets := by rw [g2.nBuckets_eq, hw.nBuckets_eq]
  have he : m1.nElems = M.nElems := by
    rw [g3, hw.nElems_eq, entries_eq M hw]
    show (0 : Int) + _ = _
    simp
  cases m1
  cases M
  simp only [] at hb hn he
  subst hb hn he
  rfl

/-- The text written by `operator<<` for a map, and `operator>>` applied to that text
followed by anything, into a fresh map: the map read is the map written. -/
theorem extract_insert (M : hashmap) (hw : M.WF) (hi : M.Int32) :
    operatorLtLt M = .ok ('{' :: entriesText M.entries ++ ['}']) ∧
    ∀ tail, operatorGtGt (('{' :: entriesText M.entries ++ ['}']) ++ tail) hashmap.ctor =
      .ok (M, tail) := by
  constructor
  · unfold operatorLtLt
    rw [keys_eq, writeEntries_spec M M.entries (fun e he => get_of_mem_entries M hw e he)]
    rfl
  · intro tail
    unfold operatorGtGt
    simp only [List.cons_append, List.tail_cons, List.append_assoc, List.singleton_append]
    rw [extractLoop_entries M.entries hi, putAll_entries M hw]
    simp

/-- The header round trip for the maps that `put` can build: for every map reached by
`put` calls that returned, whose keys and values are `int`s (negative keys and the empty
map included), `operator<<` returns a text, and `operator>>` applied to that text
(followed by any further content of the stream) and a freshly constructed map yields a
map with the same keys and the same value for every key, leaving the rest of the stream
unread. -/
theorem header_roundtrip_stored (M : hashmap) (hr : Reachable M) (hi : M.Int32) :
    ∃ text, operatorLtLt M = .ok text ∧
      ∀ tail, ∃ M1, operatorGtGt (text ++ tail) hashmap.ctor = .ok (M1, tail) ∧
        (∀ key, key ∈ M1.keys ↔ key ∈ M.keys) ∧
        (∀ key, M1.get key = M.get key) ∧
        (∀ key, M1.containsKey key = M.containsKey key) ∧
        M1.size = M.size := by
  obtain ⟨h1, h2⟩ := extract_insert M (WF_of_reachable M hr) hi
  refine ⟨_, h1, ?_⟩
  intro tail
  exact ⟨M, h2 tail, fun _ => Iff.rfl, fun _ => rfl, fun _ => rfl, rfl⟩

theorem header_roundtrip_stored_witness :
    ∃ text, operatorLtLt sampleMap = .ok text ∧
      ∀ tail, ∃ M1, operatorGtGt (text ++ tail) hashmap.ctor = .ok (M1, tail) ∧
        (∀ key, key ∈ M1.keys ↔ key ∈ sampleMap.keys) ∧
        (∀ key, M1.get key = sampleMap.get key) ∧
        (∀ key, M1.containsKey key = sampleMap.containsKey key) ∧
        M1.size = sampleMap.size :=
  header_roundtrip_stored sampleMap reachable_sampleMap (by decide)

/-- C3 (identical tree): for every map reached by `put` calls whose keys and values are
`int`s, the map read back by `operator>>` from the text written by `operator<<` lists
its keys in the same order as the original, and from it `buildEncodingTree` builds,
with any priority queue, the same tree (or fails in the same way) as from the
original. -/
theorem header_same_tree (M : hashmap) (hr : Reachable M) (hi : M.Int32) :
    ∃ text, operatorLtLt M = .ok text ∧
      ∀ tail, ∃ M1, operatorGtGt (text ++ tail) hashmap.ctor = .ok (M1, tail) ∧
        M1.keys = M.keys ∧
        ∀ P : PriorityQueue, buildEncodingTree P M1 = buildEncodingTree P M := by
  obtain ⟨h1, h2⟩ := extract_insert M (WF_of_reachable M hr) hi
  refine ⟨_, h1, ?_⟩
  intro tail
  exact ⟨M, h2 tail, rfl, fun _ => rfl⟩

theorem header_same_tree_witness :
    ∃ text, operatorLtLt sampleMap = .ok text ∧
      ∀ tail, ∃ M1, operatorGtGt (text ++ tail) hashmap.ctor = .ok (M1, tail) ∧
        M1.keys = sampleMap.keys ∧
        ∀ P : PriorityQueue, buildEncodingTree P M1 = buildEncodingTree P sampleMap :=
  header_same_tree sampleMap reachable_sampleMap (by decide)

/-! ## Cuts -/

theorem Cover_expand {t : HuffmanNode} {d : Nat} {L : List (HuffmanNode × Nat)}
    {A : List (Int × Nat)} (h : Cover t d L A) :
    ∀ (c n : Int) (x y : HuffmanNode) (D : Nat), (HuffmanNode.node c n x y, D) ∈ L →
      x ≠ .nil → y ≠ .nil → n = x.count + y.count →
      ∃ L2 A2 R, Cover t d L2 A2 ∧
        L.Perm ((HuffmanNode.node c n x y, D) :: R) ∧
        L2.Perm ((x, D + 1) :: (y, D + 1) :: R) ∧
        A2.Perm ((n, D) :: A) := by
  induction h with
  | item t d =>
      intro c n x y D hm hx hy hn
      simp only [List.mem_singleton] at hm
      injection hm with h1 h2
      subst h1 h2
      refine ⟨[(x, D + 1)] ++ [(y, D + 1)], (n, D) :: ([] ++ []), [],
        Cover.inner c n x y D _ _ _ _ hx hy hn (Cover.item x _) (Cover.item y _), ?_, ?_, ?_⟩
      · exact List.Perm.refl _
      · simp
      · simp
  | inner c0 n0 z o d Lz Lo Az Ao hz ho hn0 hcz hco ihz iho =>
      intro c n x y D hm hx hy hn
      rcases List.mem_append.1 hm with hmz | hmo
      · obtain ⟨L2, A2, R, g1, g0, g2, g3⟩ := ihz c n x y D hmz hx hy hn
        refine ⟨L2 ++ Lo, (n0, d) :: (A2 ++ Ao), R ++ Lo,
          Cover.inner c0 n0 z o d _ _ _ _ hz ho hn0 g1 hco, ?_, ?_, ?_⟩
        · exact List.Perm.append_right Lo g0
        · exact List.Perm.append_right Lo g2
        · refine (List.Perm.cons _ (List.Perm.append_right Ao g3)).trans ?_
          simp only [List.cons_append]
          exact List.Perm.swap _ _ _
      · obtain ⟨L2, A2, R, g1, g0, g2, g3⟩ := iho c n x y D hmo hx hy hn
        refine ⟨Lz ++ L2, (n0, d) :: (Az ++ A2), Lz ++ R,
          Cover.inner c0 n0 z o d _ _ _ _ hz ho hn0 hcz g1, ?_, ?_, ?_⟩
        · exact (List.Perm.append_left Lz g0).trans List.perm_middle
        · refine (List.Perm.append_left Lz g2).trans ?_
          refine List.perm_middle.trans (List.Perm.cons _ ?_)
          exact List.perm_middle
        · refine (List.Perm.cons _ (List.Perm.append_left Az g3)).trans ?_
          refine (List.Perm.cons _ List.perm_middle).trans ?_
          exact List.Perm.swap _ _ _

theorem Cover_root_mem {t : HuffmanNode} {d : Nat} {L : List (HuffmanNode × Nat)}
    {A : List (Int × Nat)} (h : Cover t d L A) : (t.count, d) ∈ cutNodes L A := by
  cases h with
  | item => simp [cutNodes]
  | inner c n z o => simp [cutNodes, HuffmanNode.count]

theorem Cover_depth {t : HuffmanNode} {d : Nat} {L : List (HuffmanNode × Nat)}
    {A : List (Int × Nat)} (h : Cover t d L A) :
    ∀ v ∈ cutNodes L A, d ≤ v.2 ∧ (v.2 = d → v.1 = t.count) := by
  induction h with
  | item t d =>
      intro v hv
      simp only [cutNodes, List.map_cons, List.map_nil, List.append_nil,
        List.mem_singleton] at hv
      subst hv
      simp
  | inner c n z o d Lz Lo Az Ao _ _ _ _ _ ihz iho =>
      intro v hv
      simp only [cutNodes, List.map_append, List.mem_append, List.mem_cons] at hv
      have hz : v ∈ cutNodes Lz Az → d + 1 ≤ v.2 := fun h => (ihz v h).1
      have ho : v ∈ cutNodes Lo Ao → d + 1 ≤ v.2 := fun h => (iho v h).1
      simp only [cutNodes, List.mem_append] at hz ho
      rcases hv with (h | h) | (h | h | h)
      · have := hz (Or.inl h); constructor <;> omega
      · have := ho (Or.inl h); constructor <;> omega
      · subst h; simp [HuffmanNode.count]
      · have := hz (Or.inr h); constructor <;> omega
      · have := ho (Or.inr h); constructor <;> omega

theorem Cover_lower {t : HuffmanNode} {d : Nat} {L : List (HuffmanNode × Nat)}
    {A : List (Int × Nat)} (h : Cover t d L A) (lo : Int) (hlo : 0 ≤ lo)
    (hL : ∀ e ∈ L, lo ≤ e.1.count) : ∀ v ∈ cutNodes L A, lo ≤ v.1 := by
  induction h with
  | item t d =>
      intro v hv
      simp only [cutNodes, List.map_cons, List.map_nil, List.append_nil,
        List.mem_singleton] at hv
      subst hv
      exact hL (t, d) (by simp)
  | inner c n z o d Lz Lo Az Ao _ _ hn hcz hco ihz iho =>
      intro v hv
      have gz := ihz (fun e he => hL e (List.mem_append_left _ he))
      have go := iho (fun e he => hL e (List.mem_append_right _ he))
      have rz := gz _ (Cover_root_mem hcz)
      have ro := go _ (Cover_root_mem hco)
      simp only [cutNodes, List.map_append, List.mem_append, List.mem_cons] at hv
      simp only [cutNodes, List.mem_append] at gz go
      rcases hv with (h | h) | (h | h | h)
      · exact gz v (Or.inl h)
      · exact go v (Or.inl h)
      · subst h; simp only [] at rz ro ⊢; omega
      · exact gz v (Or.inr h)
      · exact go v (Or.inr h)

theorem Cover_parent {t : HuffmanNode} {d : Nat} {L : List (HuffmanNode × Nat)}
    {A : List (Int × Nat)} (h : Cover t d L A) :
    ∀ v ∈ cutNodes L A, d < v.2 →
      ∃ π ∈ A, ∃ s ∈ cutNodes L A, π.2 + 1 = v.2 ∧ π.1 = v.1 + s.1 := by
  induction h with
  | item t d =>
      intro v hv hd
      simp only [cutNodes, List.map_cons, List.map_nil, List.append_nil,
        List.mem_singleton] at hv
      subst hv
      simp at hd
  | inner c n z o d Lz Lo Az Ao _ _ hn hcz hco ihz iho =>
      intro v hv hd
      have sub_z : ∀ w, w ∈ cutNodes Lz Az → w ∈ cutNodes (Lz ++ Lo) ((n, d) :: (Az ++ Ao)) := by
        intro w hw
        simp only [cutNodes, List.map_append, List.mem_append, List.mem_cons] at hw ⊢
        rcases hw with h | h
        · exact Or.inl (Or.inl h)
        · exact Or.inr (Or.inr (Or.inl h))
      have sub_o : ∀ w, w ∈ cutNodes Lo Ao → w ∈ cutNodes (Lz ++ Lo) ((n, d) :: (Az ++ Ao)) := by
        intro w hw
        simp only [cutNodes, List.map_append, List.mem_append, List.mem_cons] at hw ⊢
        rcases hw with h | h
        · exact Or.inl (Or.inr h)
        · exact Or.inr (Or.inr (Or.inr h))
      have hv' : v ∈ cutNodes Lz Az ∨ v ∈ cutNodes Lo Ao ∨ v = (n, d) := by
        simp only [cutNodes, List.map_append, List.mem_append, List.mem_cons] at hv ⊢
        tauto
      rcases hv' with h | h | h
      · obtain ⟨h1, h2⟩ := Cover_depth hcz v h
        by_cases heq : v.2 = d + 1
        · refine ⟨(n, d), by simp, (o.count, d + 1), sub_o _ (Cover_root_mem hco), ?_, ?_⟩
          · simp [heq]
          · simp only []; rw [h2 heq]; exact hn
        · obtain ⟨π, hπ, s, hs, g1, g2⟩ := ihz v h (by omega)
          exact ⟨π, by simp [hπ], s, sub_z s hs, g1, g2⟩
      · obtain ⟨h1, h2⟩ := Cover_depth hco v h
        by_cases heq : v.2 = d + 1
        · refine ⟨(n, d), by simp, (z.count, d + 1), sub_z _ (Cover_root_mem hcz), ?_, ?_⟩
          · simp [heq]
          · simp only []; rw [h2 heq, hn]; ring
        · obtain ⟨π, hπ, s, hs, g1, g2⟩ := iho v h (by omega)
          exact ⟨π, by simp [hπ], s, sub_o s hs, g1, g2⟩
      · subst h; simp at hd

/-! ## Lighter nodes lie deeper -/

/-- When the counts of the nodes in the queue are not negative and their sum fits in an
`int`, no sum formed by the loop wraps, and in the tree built no node lies deeper than a
node of smaller count. -/
theorem Merges_levelOrdered {F : List HuffmanNode} {T : HuffmanNode} (h : Merges F T) :
    (∀ t ∈ F, t ≠ .nil ∧ 0 ≤ t.count) → (F.map HuffmanNode.count).sum ≤ 2147483647 →
      ∃ L A, Cover T 0 L A ∧ (L.map Prod.fst).Perm F ∧ LevelOrdered (cutNodes L A) := by
  induction h with
  | done t =>
      intro _ _
      refine ⟨[(t, 0)], [], Cover.item t 0, by simp, ?_⟩
      intro u hu v hv hlt
      simp only [cutNodes, List.map_cons, List.map_nil, List.append_nil,
        List.mem_singleton] at hu hv
      subst hu hv
      simp at hlt
  | step F rest x y T h1 h2 h3 _ ih =>
      intro hF hS
      have hxF : x ∈ F := h1.mem_iff.2 (by simp)
      have hyF : y ∈ F := h1.mem_iff.2 (by simp)
      obtain ⟨hxn, hx0⟩ := hF x hxF
      obtain ⟨hyn, hy0⟩ := hF y hyF
      have hxy : x.count ≤ y.count := h2 y hyF
      have hsum : (F.map HuffmanNode.count).sum =
          x.count + y.count + (rest.map HuffmanNode.count).sum := by
        rw [(h1.map HuffmanNode.count).sum_eq]
        simp only [List.map_cons, List.sum_cons]
        ring
      have hrest : 0 ≤ (rest.map HuffmanNode.count).sum := by
        apply List.sum_nonneg
        intro c hc
        obtain ⟨t, ht, htc⟩ := List.mem_map.1 hc
        rw [← htc]
        exact (hF t (h1.mem_iff.2 (by simp [ht]))).2
      have hwrap : wrapInt32 (x.count + y.count) = x.count + y.count := by
        apply wrapInt32_of_isInt32
        unfold IsInt32
        constructor <;> omega
      rw [hwrap] at ih
      obtain ⟨L1, A1, hc1, hp1, hH1⟩ := ih (by
        intro t ht
        rcases List.mem_cons.1 ht with h | h
        · subst h
          refine ⟨by simp, ?_⟩
          show 0 ≤ x.count + y.count
          omega
        · exact hF t (h1.mem_iff.2 (by simp [h]))) (by
        simp only [List.map_cons, List.sum_cons]
        show x.count + y.count + (rest.map HuffmanNode.count).sum ≤ 2147483647
        omega)
      have hpm : HuffmanNode.node NOT_A_CHAR (x.count + y.count) x y ∈ L1.map Prod.fst :=
        hp1.mem_iff.2 (by simp)
      obtain ⟨⟨p, D⟩, hpD, hpe⟩ := List.mem_map.1 hpm
      simp only [] at hpe
      subst hpe
      obtain ⟨L2, A2, R, hc2, g0, g2, g3⟩ :=
        Cover_expand hc1 NOT_A_CHAR (x.count + y.count) x y D hpD hxn hyn rfl
      have herase : (R.map Prod.fst).Perm rest := by
        have := (g0.map Prod.fst).symm.trans hp1
        simp only [List.map_cons] at this
        exact this.cons_inv
      have hN : (cutNodes L2 A2).Perm
          ((x.count, D + 1) :: (y.count, D + 1) :: cutNodes L1 A1) := by
        unfold cutNodes
        have e1 := (g2.map (fun e : HuffmanNode × Nat => (e.1.count, e.2)))
        have e2 := (g0.map (fun e : HuffmanNode × Nat => (e.1.count, e.2)))
        simp only [List.map_cons] at e1 e2
        refine (List.Perm.append e1 g3).trans ?_
        simp only [List.cons_append]
        refine List.Perm.cons _ (List.Perm.cons _ ?_)
        refine List.Perm.trans ?_ (List.Perm.append_right A1 e2.symm)
        simp only [List.cons_append]
        exact List.perm_middle
      have hLB : ∀ v ∈ cutNodes L1 A1, y.count ≤ v.1 := by
        apply Cover_lower hc1 y.count hy0
        intro e he
        have : e.1 ∈ L1.map Prod.fst := List.mem_map.2 ⟨e, he, rfl⟩
        rcases List.mem_cons.1 (hp1.mem_iff.1 this) with h | h
        · rw [h]
          show y.count ≤ x.count + y.count
          omega
        · exact h3 e.1 (by simp [h])
      have hpN : ((x.count + y.count : Int), D) ∈ cutNodes L1 A1 := by
        unfold cutNodes
        exact List.mem_append_left _ (List.mem_map.2 ⟨_, hpD, rfl⟩)
      have hdeep : ∀ v ∈ cutNodes L1 A1, D + 1 < v.2 → v.1 ≤ x.count := by
        intro v hv hlt
        obtain ⟨π, hπ, s, hs, q1, q2⟩ := Cover_parent hc1 v hv (by omega)
        have hπN : π ∈ cutNodes L1 A1 := by
          unfold cutNodes; exact List.mem_append_right _ hπ
        have k1 := hH1 _ hpN π hπN (by simp only []; omega)
        have k2 := hLB s hs
        simp only [] at k1
        omega
      refine ⟨L2, A2, hc2, ?_, ?_⟩
      · refine (g2.map Prod.fst).trans ?_
        simp only [List.map_cons]
        exact (List.Perm.cons _ (List.Perm.cons _ herase)).trans h1.symm
      · intro u hu v hv hlt
        have hu' := hN.mem_iff.1 hu
        have hv' := hN.mem_iff.1 hv
        simp only [List.mem_cons] at hu' hv'
        rcases hu' with hu' | hu' | hu'
        · subst hu'
          rcases hv' with hv' | hv' | hv'
          · subst hv'; simp at hlt
          · subst hv'; simp at hlt
          · exact hdeep v hv' hlt
        · subst hu'
          rcases hv' with hv' | hv' | hv'
          · subst hv'; simp at hlt
          · subst hv'; simp at hlt
          · have := hdeep v hv' hlt
            simp only []; omega
        · rcases hv' with hv' | hv' | hv'
          · subst hv'
            have := hLB u hu'
            simp only []; omega
          · subst hv'
            exact hLB u hu'
          · exact hH1 u hu' v hv' hlt

theorem Cover_codes {t : HuffmanNode} {d : Nat} {L : List (HuffmanNode × Nat)}
    {A : List (Int × Nat)} (h : Cover t d L A) :
    ∀ (e : Int × Int) (k : Nat), (leafNode e, k) ∈ L →
      ∃ p, (e.1, p) ∈ codes t ∧ p.length + d = k := by
  induction h with
  | item t d =>
      intro e k hm
      simp only [List.mem_singleton] at hm
      injection hm with h1 h2
      subst h1 h2
      exact ⟨[], by simp [leafNode, codes], by simp⟩
  | inner c n z o d Lz Lo Az Ao hz _ _ _ _ ihz iho =>
      intro e k hm
      have hnl : ¬ (z = .nil ∧ o = .nil) := fun h => hz h.1
      simp only [codes, if_neg hnl, List.mem_append, List.mem_map]
      rcases List.mem_append.1 hm with h | h
      · obtain ⟨p, hp1, hp2⟩ := ihz e k h
        exact ⟨'0' :: p, Or.inl ⟨(e.1, p), hp1, rfl⟩, by simp only [List.length_cons]; omega⟩
      · obtain ⟨p, hp1, hp2⟩ := iho e k h
        exact ⟨'1' :: p, Or.inr ⟨(e.1, p), hp1, rfl⟩, by simp only [List.length_cons]; omega⟩

theorem mem_entries_of_get (M : hashmap) (hw : M.WF) (key value : Int)
    (h : M.get key = .ok value) : (key, value) ∈ M.entries := by
  by_cases hk : ValidKey key
  · rw [get_of_valid M hw key hk] at h
    rw [mem_entries_iff M hw]
    cases hl : M.lookup key with
    | none => rw [hl] at h; cases h
    | some v => rw [hl] at h; injection h with h; rw [h]
  · unfold hashmap.get at h
    rw [bucket_of_invalid M hw key hk] at h
    cases h

/-- C5 (optimality sanity), amended: for every priority queue that obeys the queue laws,
whatever node it hands out among those of equal count, and every map with at least one
key reached by `put` calls whose counts are not negative and sum to at most `2^31 - 1`
(so that every count of a tree node fits in an `int`), the tree is built and for any two
keys `x`, `y` with `M[x] < M[y]` the code table has a code for each and the code of `x`
is at least as long as the code of `y`. -/
theorem code_length_monotone (P : PriorityQueue) (hP : P.Lawful) (M : hashmap)
    (hr : Reachable M) (hne : M.keys ≠ []) (hnn : ∀ e ∈ M.entries, 0 ≤ e.2)
    (hsum : (M.entries.map Prod.snd).sum ≤ 2147483647) :
    ∃ T, buildEncodingTree P M = .ok T ∧
      ∀ (x y vx vy : Int), M.get x = .ok vx → M.get y = .ok vy → vx < vy →
        ∃ px py, buildEncodingMap T x = some px ∧ buildEncodingMap T y = some py ∧
          py.length ≤ px.length := by
  have hw := WF_of_reachable M hr
  obtain ⟨T, hT, hM, _, hperm⟩ := buildEncodingTree_leaves P hP M hw hne
  refine ⟨T, hT, ?_⟩
  have hn : ((codes T).map Prod.fst).Nodup := by
    rw [codes_keys]
    exact ((hperm.map Prod.fst).nodup_iff).2 (entries_keys_nodup M hw)
  obtain ⟨L, A, hc, hpL, hH⟩ := Merges_levelOrdered hM (by
    intro t ht
    obtain ⟨e, he, hte⟩ := List.mem_map.1 ht
    subst hte
    exact ⟨leafNode_ne_nil e, by simpa [leafNode, HuffmanNode.count] using hnn e he⟩) (by
    have hc : (M.entries.map leafNode).map HuffmanNode.count = M.entries.map Prod.snd := by
      rw [List.map_map]
      rfl
    rw [hc]
    exact hsum)
  have key : ∀ (k v : Int), M.get k = .ok v →
      ∃ (d : Nat) (p : List Char), (v, d) ∈ cutNodes L A ∧ buildEncodingMap T k = some p ∧
        p.length = d := by
    intro k v hg
    have hm := mem_entries_of_get M hw k v hg
    have : leafNode (k, v) ∈ L.map Prod.fst :=
      hpL.mem_iff.2 (List.mem_map.2 ⟨(k, v), hm, rfl⟩)
    obtain ⟨⟨t, d⟩, htd, hte⟩ := List.mem_map.1 this
    simp only [] at hte
    subst hte
    obtain ⟨p, hp1, hp2⟩ := Cover_codes hc (k, v) d htd
    refine ⟨d, p, ?_, buildEncodingMap_of_mem T hn (k, p) hp1, by omega⟩
    unfold cutNodes
    refine List.mem_append_left _ (List.mem_map.2 ⟨_, htd, ?_⟩)
    simp [leafNode, HuffmanNode.count]
  intro x y vx vy hx hy hlt
  obtain ⟨dx, px, mx, ex, lx⟩ := key x vx hx
  obtain ⟨dy, py, my, ey, ly⟩ := key y vy hy
  refine ⟨px, py, ex, ey, ?_⟩
  by_contra hcon
  have := hH _ mx _ my (by simp only []; omega)
  simp only [] at this
  omega

theorem code_length_monotone_witness :
    ∃ T, buildEncodingTree listQueue sampleMap = .ok T ∧
      ∀ (x y vx vy : Int), sampleMap.get x = .ok vx → sampleMap.get y = .ok vy → vx < vy →
        ∃ px py, buildEncodingMap T x = some px ∧ buildEncodingMap T y = some py ∧
          py.length ≤ px.length :=
  code_length_monotone listQueue listQueue_lawful sampleMap reachable_sampleMap
    (by decide) (by decide) (by decide)

/-! ## The steps of `compress` followed by the steps of `decompress` -/

theorem int32_frequencyMap (signedChar : Bool) (S : List Byte) (M : hashmap)
    (hM : buildFrequencyMap signedChar S hashmap.ctor = .ok M) : M.Int32 := by
  obtain ⟨M1, h1, hr, _, hkeys, hget, hE, _⟩ := buildFrequencyMap_ok signedChar S
  rw [hM] at h1
  injection h1 with h1
  subst h1
  have hw := WF_of_reachable M hr
  intro e he
  have hk : e.1 ∈ M.keys := by
    rw [keys_eq]; exact List.mem_map.2 ⟨e, he, rfl⟩
  have hv := get_of_mem_entries M hw e he
  rcases (hkeys e.1).1 hk with h | ⟨b, hb, h⟩
  · rw [h] at hv ⊢
    rw [hE] at hv
    injection hv with hv
    rw [← hv]
    exact ⟨by decide, by decide⟩
  · rw [h] at hv ⊢
    rw [hget b hb] at hv
    injection hv with hv
    have hr1 := charCode_range signedChar b
    rw [← hv]
    refine ⟨?_, wrapInt32_isInt32 _⟩
    unfold IsInt32
    constructor <;> omega

/-- The whole path of a file through `compress` and `decompress`, step by step, for a
non-empty input: the header written by `operator<<` is read
back by `operator>>` into a fresh map, the tree built from that map is the tree used
for encoding, and `decode` run with it on the bits written, followed by whatever bits
pad the last byte, returns the input. -/
theorem compress_decompress_steps (P : PriorityQueue) (hP : P.Lawful) (signedChar : Bool)
    (eofBit : Int) (S : List Byte) (hS : S ≠ []) :
    ∃ M T enc header, buildFrequencyMap signedChar S hashmap.ctor = .ok M ∧
      buildEncodingTree P M = .ok T ∧
      operatorLtLt M = .ok header ∧
      encode signedChar S (buildEncodingMap T) true = .ok enc ∧
      ∀ (tail : List Char) (padding : List Int) (fuel : Nat), enc.written.length ≤ fuel →
        ∃ M1 T1, operatorGtGt (header ++ tail) hashmap.ctor = .ok (M1, tail) ∧
          buildEncodingTree P M1 = .ok T1 ∧
          decode eofBit fuel (enc.written ++ padding) T1 = .ok S := by
  obtain ⟨M, T, enc, h1, h2, h3, _, _, _, h5⟩ := roundtrip_core P hP signedChar S hS
  obtain ⟨M0, g1, hr, _⟩ := buildFrequencyMap_ok signedChar S
  have hMe : M0 = M := by
    rw [h1] at g1; injection g1 with g1; exact g1.symm
  subst hMe
  obtain ⟨k1, k2⟩ := extract_insert M0 (WF_of_reachable M0 hr)
    (int32_frequencyMap signedChar S M0 h1)
  refine ⟨M0, T, enc, _, h1, h2, k1, h3, ?_⟩
  intro tail padding fuel hfuel
  exact ⟨M0, T, k2 tail, h2, h5 eofBit fuel padding hfuel⟩

/-! ## Trailing bits -/

/-- C19 (trailing bits): for every priority queue that obeys the queue laws and every
non-empty input `S`, with the tree `T` and the code table derived from the frequency map
of `S`, `decode` run with `T` on the bits written by `encode` followed by any further
bits returns exactly `S`, which is also what it returns on the bits written alone: it
stops at the `PSEUDO_EOF` leaf and reads nothing after it. -/
theorem decode_ignores_trailing (P : PriorityQueue) (hP : P.Lawful) (signedChar : Bool)
    (eofBit : Int) (S : List Byte) (hS : S ≠ []) :
    ∃ M T enc, buildFrequencyMap signedChar S hashmap.ctor = .ok M ∧
      buildEncodingTree P M = .ok T ∧
      encode signedChar S (buildEncodingMap T) true = .ok enc ∧
      ∀ (trailing : List Int) (fuel : Nat), enc.written.length ≤ fuel →
        decode eofBit fuel (enc.written ++ trailing) T = .ok S ∧
        decode eofBit fuel (enc.written ++ trailing) T = decode eofBit fuel enc.written T := by
  obtain ⟨M, T, enc, h1, h2, h3, _, _, _, h5⟩ := roundtrip_core P hP signedChar S hS
  refine ⟨M, T, enc, h1, h2, h3, ?_⟩
  intro trailing fuel hfuel
  have a := h5 eofBit fuel trailing hfuel
  have b := h5 eofBit fuel [] hfuel
  rw [List.append_nil] at b
  exact ⟨a, by rw [a, b]⟩

theorem decode_ignores_trailing_witness :
    ∃ M T enc, buildFrequencyMap true sampleInput hashmap.ctor = .ok M ∧
      buildEncodingTree listQueue M = .ok T ∧
      encode true sampleInput (buildEncodingMap T) true = .ok enc ∧
      ∀ (trailing : List Int) (fuel : Nat), enc.written.length ≤ fuel →
        decode (-1) fuel (enc.written ++ trailing) T = .ok sampleInput ∧
        decode (-1) fuel (enc.written ++ trailing) T = decode (-1) fuel enc.written T :=
  decode_ignores_trailing listQueue listQueue_lawful true (-1) sampleInput (by decide)

/-! ## The code table of an arbitrary tree -/

/-- C17 (code table): for every tree, full or not, whose leaves carry pairwise distinct
symbols, the table returned by `buildEncodingMap` has an entry exactly for the symbols of
the leaves, and the entry of a symbol is the root-to-leaf path of its leaf (`'0'` for a
step into `zero`, `'1'` for a step into `one`); for a tree that is a single leaf the
table has the one entry of its symbol, with the empty string as code.  The function
only reads the tree: it returns the table and nothing else. -/
theorem buildEncodingMap_spec (tree : HuffmanNode)
    (hd : ((leaves tree).map Prod.fst).Nodup) :
    (∀ symbol, (buildEncodingMap tree symbol).isSome = true ↔
      symbol ∈ (leaves tree).map Prod.fst) ∧
    (∀ symbol path, buildEncodingMap tree symbol = some path ↔ (symbol, path) ∈ codes tree) ∧
    (∀ character count symbol, tree = .node character count .nil .nil →
      buildEncodingMap tree symbol = if symbol = character then some [] else none) := by
  have hn : ((codes tree).map Prod.fst).Nodup := by rw [codes_keys]; exact hd
  refine ⟨?_, ?_, ?_⟩
  · intro symbol
    rw [← codes_keys]
    constructor
    · intro h
      obtain ⟨p, hp⟩ := Option.isSome_iff_exists.1 h
      exact List.mem_map.2 ⟨(symbol, p), mem_codes_of_buildEncodingMap tree hn symbol p hp, rfl⟩
    · intro h
      obtain ⟨e, he, hfe⟩ := List.mem_map.1 h
      rw [← hfe, buildEncodingMap_of_mem tree hn e he]
      rfl
  · intro symbol path
    constructor
    · exact mem_codes_of_buildEncodingMap tree hn symbol path
    · intro h
      exact buildEncodingMap_of_mem tree hn (symbol, path) h
  · intro character count symbol ht
    subst ht
    simp [buildEncodingMap, buildEncodingMapHelper, CodeMap.assign, CodeMap.empty]

theorem buildEncodingMap_spec_witness :
    (∀ symbol, (buildEncodingMap sampleTree symbol).isSome = true ↔
      symbol ∈ (leaves sampleTree).map Prod.fst) ∧
    (∀ symbol path, buildEncodingMap sampleTree symbol = some path ↔
      (symbol, path) ∈ codes sampleTree) ∧
    (∀ character count symbol, sampleTree = .node character count .nil .nil →
      buildEncodingMap sampleTree symbol = if symbol = character then some [] else none) :=
  buildEncodingMap_spec sampleTree (by decide)

/-! ## The example `"aabbbc"` -/

theorem isLeast_iff (x : HuffmanNode) (F : List HuffmanNode) :
    isLeast x F = true ↔ ∀ z ∈ F, x.count ≤ z.count := by
  unfold isLeast
  simp [List.all_eq_true]

/-- Every tree the merge loop can end with is among the enumerated outcomes. -/
theorem mem_mergeResults {F : List HuffmanNode} {T : HuffmanNode} (h : Merges F T) :
    ∀ (G : List HuffmanNode), F.Perm G → ∀ fuel, G.length ≤ fuel + 1 →
      T ∈ mergeResults fuel G := by
  induction h with
  | done t =>
      intro G hG fuel _
      have : G = [t] := List.perm_singleton.1 hG.symm
      subst this
      cases fuel <;> simp [mergeResults]
  | step F rest x y T h1 h2 h3 _ ih =>
      intro G hG fuel hlen
      have hGp : G.Perm (x :: y :: rest) := hG.symm.trans h1
      have hGlen : G.length = rest.length + 2 := by
        have := hGp.length_eq
        simpa using this
      cases fuel with
      | zero => omega
      | succ fuel =>
          have hne : ¬ G.length = 1 := by omega
          have hxG : x ∈ G := hGp.mem_iff.2 (by simp)
          have hEx : (G.erase x).Perm (y :: rest) := by
            have := hGp.erase x
            simpa using this
          have hyE : y ∈ G.erase x := hEx.mem_iff.2 (by simp)
          have hEy : ((G.erase x).erase y).Perm rest := by
            have := hEx.erase y
            simpa using this
          have hxl : isLeast x G = true := by
            rw [isLeast_iff]
            intro z hz
            exact h2 z (hG.mem_iff.2 hz)
          have hyl : isLeast y (G.erase x) = true := by
            rw [isLeast_iff]
            intro z hz
            exact h3 z (hEx.mem_iff.1 hz)
          have hrec := ih (.node NOT_A_CHAR (wrapInt32 (x.count + y.count)) x y :: (G.erase x).erase y)
            (List.Perm.cons _ hEy.symm) fuel (by
              have := hEy.length_eq
              simp only [List.length_cons]
              omega)
          simp only [mergeResults, if_neg hne, List.mem_flatten, List.mem_map,
            List.mem_filter]
          refine ⟨_, ⟨x, ⟨hxG, hxl⟩, rfl⟩, ?_⟩
          simp only [List.mem_flatten, List.mem_map, List.mem_filter]
          exact ⟨_, ⟨y, ⟨hyE, hyl⟩, rfl⟩, hrec⟩

theorem sample_outcomes :
    ∀ T ∈ mergeResults 3 (sampleMap.entries.map leafNode),
      (buildEncodingMap T 98).map List.length = some 1 ∧
      (buildEncodingMap T 99).map List.length = some 3 ∧
      (buildEncodingMap T 256).map List.length = some 3 := by
  decide

/-- C16 (example): for the string `"aabbbc"` the frequency map is
`{97:2, 98:3, 256:1, 99:1}`, whichever way `char` is signed, and for every priority
queue that obeys the queue laws, whatever node it hands out among those of equal count,
the tree is built and in its code table the code of `'c'` (99) and the code of
`PSEUDO_EOF` are both strictly longer than the code of `'b'` (98). -/
theorem sample_code_lengths (P : PriorityQueue) (hP : P.Lawful) (signedChar : Bool) :
    buildFrequencyMap signedChar sampleInput hashmap.ctor = .ok sampleMap ∧
    sampleMap.keys = [97, 98, 256, 99] ∧
    sampleMap.get 97 = .ok 2 ∧ sampleMap.get 98 = .ok 3 ∧ sampleMap.get 99 = .ok 1 ∧
    sampleMap.get PSEUDO_EOF = .ok 1 ∧
    ∃ T pb pc pe, buildEncodingTree P sampleMap = .ok T ∧
      buildEncodingMap T 98 = some pb ∧ buildEncodingMap T 99 = some pc ∧
      buildEncodingMap T PSEUDO_EOF = some pe ∧
      pb.length < pc.length ∧ pb.length < pe.length := by
  refine ⟨by cases signedChar <;> decide, by decide, by decide, by decide, by decide,
    by decide, ?_⟩
  obtain ⟨T, hT, hM, _, _⟩ := buildEncodingTree_leaves P hP sampleMap
    (WF_of_reachable _ reachable_sampleMap) (by decide)
  have hmem := mem_mergeResults hM _ (List.Perm.refl _) 3 (by decide)
  obtain ⟨h1, h2, h3⟩ := sample_outcomes T hmem
  obtain ⟨pb, hb, hbl⟩ := Option.map_eq_some'.1 h1
  obtain ⟨pc, hc, hcl⟩ := Option.map_eq_some'.1 h2
  obtain ⟨pe, he, hel⟩ := Option.map_eq_some'.1 h3
  exact ⟨T, pb, pc, pe, hT, hb, hc, he, by omega, by omega⟩

theorem sample_code_lengths_witness :
    buildFrequencyMap true sampleInput hashmap.ctor = .ok sampleMap ∧
    sampleMap.keys = [97, 98, 256, 99] ∧
    sampleMap.get 97 = .ok 2 ∧ sampleMap.get 98 = .ok 3 ∧ sampleMap.get 99 = .ok 1 ∧
    sampleMap.get PSEUDO_EOF = .ok 1 ∧
    ∃ T pb pc pe, buildEncodingTree listQueue sampleMap = .ok T ∧
      buildEncodingMap T 98 = some pb ∧ buildEncodingMap T 99 = some pc ∧
      buildEncodingMap T PSEUDO_EOF = some pe ∧
      pb.length < pc.length ∧ pb.length < pe.length :=
  sample_code_lengths listQueue listQueue_lawful true

/-! ## The hash function -/

theorem hashFunction_nonneg_or_min (input : Int) :
    0 ≤ hashFunction input ∨ hashFunction input = -2147483648 := by
  unfold hashFunction
  simp only []
  generalize (((toUInt32 (input >>> 16) ^^^ toUInt32 input) * 0x45d9f3b) % 4294967296 >>> 16 ^^^
    ((toUInt32 (input >>> 16) ^^^ toUInt32 input) * 0x45d9f3b) % 4294967296) = temp
  unfold wrapInt32 toInt32 toUInt32
  split <;> split <;> (try split) <;> omega

/-- C18, evaluated at the failing inputs: for the keys `1895428345` and `-1895428346`
the mixed value is `0x80000000`, which converts to the least `int`; `hash *= -1` leaves
it unchanged, so `hashFunction` returns `-2147483648`, `hashFunction(key) % 10` is `-8`,
and `put`, `get` and `containsKey` index the bucket array outside its bounds.  Every
other result of `hashFunction` is not negative. -/
theorem hashFunction_negative :
    hashFunction 1895428345 = -2147483648 ∧ hashFunction (-1895428346) = -2147483648 ∧
    hashmap.ctor.choice 1895428345 = -8 ∧
    hashmap.ctor.put 1895428345 1 = .error .badBucket ∧
    hashmap.ctor.get 1895428345 = .error .badBucket ∧
    hashmap.ctor.containsKey 1895428345 = .error .badBucket ∧
    ∀ input, 0 ≤ hashFunction input ∨ hashFunction input = -2147483648 :=
  ⟨by decide, by decide, by decide, by decide, by decide, by decide,
    hashFunction_nonneg_or_min⟩

/-! ## The contract of `put`, `get`, `containsKey`, `keys` and `size` -/

set_option maxRecDepth 100000 in
theorem validKey_symbols : ∀ n : Fin 386, ValidKey ((n.val : Int) - 128) := by
  decide

theorem validKey_of_range (key : Int) (h : -128 ≤ key ∧ key ≤ 257) : ValidKey key := by
  have := validKey_symbols ⟨(key + 128).toNat, by omega⟩
  have e : (((key + 128).toNat : Nat) : Int) - 128 = key := by omega
  simp only [] at this
  rwa [e] at this

theorem map_set_same {α β : Type} (f : α → β) (l : List α) (i : Nat) (c c1 : α)
    (h : l[i]? = some c) (hf : f c1 = f c) : (l.set i c1).map f = l.map f := by
  induction l generalizing i with
  | nil => simp
  | cons x xs ih =>
      cases i with
      | zero =>
          simp only [List.getElem?_cons_zero, Option.some.injEq] at h
          subst h
          simp [hf]
      | succ j =>
          simp only [List.getElem?_cons_succ] at h
          simp [ih j h]

/-- What one call of `put` with a key of valid bucket index does to a map. -/
theorem put_effect (m : hashmap) (hw : m.WF) (key value : Int) (hk : ValidKey key) :
    ∃ m1, m.put key value = .ok m1 ∧ m1.WF ∧
      (∀ other, m1.lookup other = if other = key then some value else m.lookup other) ∧
      (key ∈ m.keys → m1.keys = m.keys ∧ m1.size = m.size) ∧
      (key ∉ m.keys → m1.keys.Perm (key :: m.keys) ∧ m1.size = m.size + 1) := by
  obtain ⟨c, hc, hp⟩ := put_of_valid m hw key value hk
  have hw1 := WF_put m _ hw key value hp
  have hl := lookup_put m _ hw key value hp
  refine ⟨_, hp, hw1, hl, ?_, ?_⟩
  · intro hmem
    have hmc : key ∈ c.map Prod.fst := by
      have := (mem_keys_iff m hw key).1 hmem
      rw [lookup_eq m key c hc] at this
      by_contra hn
      rw [(chainGet_eq_none_iff key c).2 hn] at this
      cases this
    obtain ⟨e1, e2⟩ := chainPut_keys_of_mem key value c hmc
    constructor
    · rw [keys_eq, keys_eq, entries_eq _ hw1, entries_eq m hw, List.map_flatten,
        List.map_flatten]
      simp only []
      rw [map_set_same (List.map Prod.fst) m.buckets (slot key) c _ hc e1]
    · simp only [hashmap.size, e2, Bool.false_eq_true, if_false]
  · intro hmem
    have hmc : key ∉ c.map Prod.fst := by
      intro hx
      apply hmem
      rw [mem_keys_iff m hw key, lookup_eq m key c hc]
      cases hg : chainGet key c with
      | none => exact absurd hx ((chainGet_eq_none_iff key c).1 hg)
      | some v => rfl
    constructor
    · rw [List.perm_ext_iff_of_nodup (keys_nodup _ hw1)
        (List.nodup_cons.2 ⟨hmem, keys_nodup m hw⟩)]
      intro a
      rw [mem_keys_iff _ hw1, hl a, List.mem_cons, mem_keys_iff m hw]
      by_cases ha : a = key
      · simp [ha]
      · simp [ha]
    · rw [chainPut_of_not_mem key value c hmc]
      simp only [hashmap.size, if_true]

/-- C14 (put/get contract): for every map reached by `put` calls, every key in the
range of the frequency-map keys (the codes of the bytes, `-128 .. 255`, and the two
sentinels) and every value, `put(k, v)` returns; afterwards `get(k)` returns `v` and
`containsKey(k)` is true, `get` and `containsKey` give for every other key what they
gave before, and when `k` was already a key the sequence `keys()` and `size()` are
unchanged (the value is overwritten, no entry is added), otherwise `k` is the one new
key and `size()` grows by one. -/
theorem put_get_contract (m : hashmap) (hr : Reachable m) (k v : Int)
    (hk : -128 ≤ k ∧ k ≤ 257) :
    ∃ m1, m.put k v = .ok m1 ∧ m1.get k = .ok v ∧ m1.containsKey k = .ok true ∧
      (∀ other, other ≠ k →
        m1.get other = m.get other ∧ m1.containsKey other = m.containsKey other) ∧
      (k ∈ m.keys → m1.keys = m.keys ∧ m1.size = m.size) ∧
      (k ∉ m.keys → m1.keys.Perm (k :: m.keys) ∧ m1.size = m.size + 1) ∧
      m1.keys.Nodup := by
  have hw := WF_of_reachable m hr
  have hv := validKey_of_range k hk
  obtain ⟨m1, hp, hw1, hl, h1, h2⟩ := put_effect m hw k v hv
  refine ⟨m1, hp, ?_, ?_, ?_, h1, h2, keys_nodup m1 hw1⟩
  · rw [get_of_valid m1 hw1 k hv, hl k, if_pos rfl]
  · rw [containsKey_of_valid m1 hw1 k hv, hl k, if_pos rfl]; rfl
  · intro other ho
    by_cases hvo : ValidKey other
    · rw [get_of_valid m1 hw1 other hvo, get_of_valid m hw other hvo,
        containsKey_of_valid m1 hw1 other hvo, containsKey_of_valid m hw other hvo,
        hl other, if_neg ho]
      exact ⟨rfl, rfl⟩
    · unfold hashmap.get hashmap.containsKey
      rw [bucket_of_invalid m1 hw1 other hvo, bucket_of_invalid m hw other hvo]
      exact ⟨rfl, rfl⟩

theorem put_get_contract_witness :
    ∃ m1, sampleMap.put 99 5 = .ok m1 ∧ m1.get 99 = .ok 5 ∧ m1.containsKey 99 = .ok true ∧
      (∀ other, other ≠ 99 →
        m1.get other = sampleMap.get other ∧
        m1.containsKey other = sampleMap.containsKey other) ∧
      (99 ∈ sampleMap.keys → m1.keys = sampleMap.keys ∧ m1.size = sampleMap.size) ∧
      (99 ∉ sampleMap.keys → m1.keys.Perm (99 :: sampleMap.keys) ∧
        m1.size = sampleMap.size + 1) ∧
      m1.keys.Nodup :=
  put_get_contract sampleMap reachable_sampleMap 99 5 (by decide)

/-- For a key of valid bucket index `get` throws exactly when `containsKey` is false,
which is exactly when the key is not among `keys()`. -/
theorem get_fails_iff_absent (m : hashmap) (hw : m.WF) (key : Int) (hk : ValidKey key) :
    (m.get key = .error .keyNotInMap ↔ m.containsKey key = .ok false) ∧
    (m.containsKey key = .ok false ↔ key ∉ m.keys) := by
  rw [get_of_valid m hw key hk, containsKey_of_valid m hw key hk, mem_keys_iff m hw key]
  cases m.lookup key <;> simp

/-- C15, evaluated at the failing input: on a freshly constructed map, for the key
`1895428345`, which was never put, `get` does not throw "Error: Key is not in map." and
`containsKey` does not return false: the bucket index is `-8` and both read the bucket
array outside its bounds.  This is the defect of `hashFunction` shown for C18; keys
whose bucket index is not negative are covered by `get_fails_iff_absent`. -/
theorem get_bad_key :
    hashmap.ctor.keys = [] ∧
    hashmap.ctor.get 1895428345 = .error .badBucket ∧
    hashmap.ctor.containsKey 1895428345 = .error .badBucket ∧
    Fault.badBucket.isException = false := by
  decide

/-! ## Sequences of `put` calls -/

theorem putAll_append (xs ys : List (Int × Int)) :
    ∀ (m0 m1 : hashmap), putAll xs m0 = .ok m1 → putAll (xs ++ ys) m0 = putAll ys m1 := by
  induction xs with
  | nil => intro m0 m1 h; simp only [putAll] at h; injection h with h; subst h; rfl
  | cons e rest ih =>
      intro m0 m1 h
      simp only [putAll, List.cons_append] at h ⊢
      cases hp : m0.put e.1 e.2 with
      | error x => rw [hp] at h; cases h
      | ok m2 =>
          rw [hp] at h
          simp only [] at h ⊢
          exact ih m2 m1 h

theorem reachable_of_putAll (kvs : List (Int × Int)) :
    ∀ (m0 m : hashmap), Reachable m0 → putAll kvs m0 = .ok m → Reachable m := by
  induction kvs with
  | nil => intro m0 m hr h; simp only [putAll] at h; injection h with h; subst h; exact hr
  | cons e rest ih =>
      intro m0 m hr h
      simp only [putAll] at h
      cases hp : m0.put e.1 e.2 with
      | error x => rw [hp] at h; cases h
      | ok m2 =>
          rw [hp] at h
          exact ih m2 m (Reachable.put hr hp) h

theorem putAll_of_reachable (m : hashmap) (hr : Reachable m) :
    ∃ kvs, putAll kvs hashmap.ctor = .ok m := by
  induction hr with
  | ctor => exact ⟨[], rfl⟩
  | put _ hp ih =>
      rename_i m0 m1 key value _
      obtain ⟨kvs, hk⟩ := ih
      refine ⟨kvs ++ [(key, value)], ?_⟩
      rw [putAll_append kvs [(key, value)] _ _ hk]
      simp only [putAll, hp]

theorem putAll_lookup (kvs : List (Int × Int)) :
    ∀ (m0 m : hashmap), m0.WF → putAll kvs m0 = .ok m →
      ∀ key, (m.lookup key).isSome = true ↔
        (m0.lookup key).isSome = true ∨ key ∈ kvs.map Prod.fst := by
  induction kvs with
  | nil =>
      intro m0 m _ h key
      simp only [putAll] at h
      injection h with h
      subst h
      simp
  | cons e rest ih =>
      intro m0 m hw h key
      simp only [putAll] at h
      cases hp : m0.put e.1 e.2 with
      | error x => rw [hp] at h; cases h
      | ok m2 =>
          rw [hp] at h
          have hw2 := WF_put m0 m2 hw e.1 e.2 hp
          rw [ih m2 m hw2 h key, lookup_put m0 m2 hw e.1 e.2 hp key]
          by_cases hk : key = e.1
          · simp [hk]
          · simp [hk]

/-- The invariant of the maps that `put` can build: for every map reached from a
default-constructed map by `put` calls that returned, `keys()` holds no key twice and
its length is `size()`; the map is the outcome of some sequence of `put` calls, and for
every sequence of `put` calls that leads to it, `keys()` holds exactly the keys of those
calls and `size()` is the number of distinct keys among them, not the number of
calls. -/
theorem keys_invariant_stored (m : hashmap) (hr : Reachable m) :
    m.keys.Nodup ∧ m.size = (m.keys.length : Int) ∧
    (∃ kvs, putAll kvs hashmap.ctor = .ok m) ∧
    ∀ kvs, putAll kvs hashmap.ctor = .ok m →
      (∀ key, key ∈ m.keys ↔ key ∈ kvs.map Prod.fst) ∧
      m.size = ((kvs.map Prod.fst).dedup.length : Int) := by
  have hw := WF_of_reachable m hr
  refine ⟨keys_nodup m hw, size_eq_length_keys m hw, putAll_of_reachable m hr, ?_⟩
  intro kvs hk
  have hmem : ∀ key, key ∈ m.keys ↔ key ∈ kvs.map Prod.fst := by
    intro key
    rw [mem_keys_iff m hw, putAll_lookup kvs _ m WF_ctor hk key, lookup_ctor]
    simp
  refine ⟨hmem, ?_⟩
  have hperm : m.keys.Perm (kvs.map Prod.fst).dedup := by
    rw [List.perm_ext_iff_of_nodup (keys_nodup m hw) (List.nodup_dedup _)]
    intro a
    rw [hmem a, List.mem_dedup]
  rw [size_eq_length_keys m hw, hperm.length_eq]

theorem keys_invariant_stored_witness :
    sampleMap.keys.Nodup ∧ sampleMap.size = (sampleMap.keys.length : Int) ∧
    (∃ kvs, putAll kvs hashmap.ctor = .ok sampleMap) ∧
    ∀ kvs, putAll kvs hashmap.ctor = .ok sampleMap →
      (∀ key, key ∈ sampleMap.keys ↔ key ∈ kvs.map Prod.fst) ∧
      sampleMap.size = ((kvs.map Prod.fst).dedup.length : Int) :=
  keys_invariant_stored sampleMap reachable_sampleMap

/-! ## The empty input and the empty map -/

theorem Merges_singleton {t T : HuffmanNode} (h : Merges [t] T) : T = t := by
  cases h with
  | done => rfl
  | step _ rest x y _ h1 =>
      have := h1.length_eq
      simp at this

theorem reachable_emptyInputMap : Reachable emptyInputMap :=
  @Reachable.put hashmap.ctor emptyInputMap 256 1 Reachable.ctor (by decide)

/-- C11, evaluated at the failing input: for the empty input the frequency map is
`{PSEUDO_EOF:1}`, the tree built by any priority queue that obeys the queue laws is the
single leaf of `PSEUDO_EOF`, its code is the empty string and `encode` returns the empty
string and writes no bit; but `decode` with that tree, on any bits and for any
end-of-stream value, moves from the root to a null child in its first round and
dereferences it: it never returns the empty output. -/
theorem empty_input_decode (P : PriorityQueue) (hP : P.Lawful) (signedChar : Bool)
    (eofBit : Int) :
    buildFrequencyMap signedChar [] hashmap.ctor = .ok emptyInputMap ∧
    emptyInputMap.keys = [PSEUDO_EOF] ∧ emptyInputMap.get PSEUDO_EOF = .ok 1 ∧
    buildEncodingTree P emptyInputMap = .ok emptyInputTree ∧
    emptyInputTree.isLeaf = true ∧
    buildEncodingMap emptyInputTree PSEUDO_EOF = some [] ∧
    encode signedChar [] (buildEncodingMap emptyInputTree) true =
      .ok { encodedString := [], size := 0, written := [] } ∧
    (∀ (input : List Int) (fuel : Nat),
      decode eofBit (fuel + 1) input emptyInputTree = .error .nullPointer) ∧
    (∀ (input : List Int) (fuel : Nat) (out : List Byte),
      decode eofBit fuel input emptyInputTree ≠ .ok out) := by
  have hdec : ∀ (input : List Int) (fuel : Nat),
      decode eofBit (fuel + 1) input emptyInputTree = .error .nullPointer := by
    intro input fuel
    simp [decode, decodeLoop, emptyInputTree]
  refine ⟨by cases signedChar <;> decide, by decide, by decide, ?_, by decide, by decide,
    by cases signedChar <;> decide, hdec, ?_⟩
  · obtain ⟨T, hT, hM, _, _⟩ := buildEncodingTree_leaves P hP emptyInputMap
      (WF_of_reachable _ reachable_emptyInputMap) (by decide)
    have hl : emptyInputMap.entries.map leafNode = [emptyInputTree] := by decide
    rw [hl] at hM
    rw [hT, Merges_singleton hM]
  · intro input fuel out
    cases fuel with
    | zero => simp [decode, decodeLoop]
    | succ fuel => rw [hdec input fuel]; simp

theorem empty_input_decode_witness :
    buildFrequencyMap true [] hashmap.ctor = .ok emptyInputMap ∧
    emptyInputMap.keys = [PSEUDO_EOF] ∧ emptyInputMap.get PSEUDO_EOF = .ok 1 ∧
    buildEncodingTree listQueue emptyInputMap = .ok emptyInputTree ∧
    emptyInputTree.isLeaf = true ∧
    buildEncodingMap emptyInputTree PSEUDO_EOF = some [] ∧
    encode true [] (buildEncodingMap emptyInputTree) true =
      .ok { encodedString := [], size := 0, written := [] } ∧
    (∀ (input : List Int) (fuel : Nat),
      decode (-1) (fuel + 1) input emptyInputTree = .error .nullPointer) ∧
    (∀ (input : List Int) (fuel : Nat) (out : List Byte),
      decode (-1) fuel input emptyInputTree ≠ .ok out) :=
  empty_input_decode listQueue listQueue_lawful true (-1)

/-- C12, as stated, fails: for the freshly constructed map, which has no entries,
`buildEncodingTree` raises no error; it evaluates `pq.top()` on the empty queue, which
is undefined behaviour. -/
theorem buildEncodingTree_empty_counterexample :
    hashmap.ctor.keys = [] ∧
    buildEncodingTree listQueue hashmap.ctor = .error .emptyQueue ∧
    Fault.emptyQueue.isException = false := by
  decide

/-- C12, amended: `buildEncodingTree` has no check for a map without entries and no
`InvalidInput` error.  For every priority queue that obeys the queue laws, on a map with
no keys it pushes nothing, skips the loop and evaluates `pq.top()` on the empty queue,
which is undefined behaviour and not an exception; for every map with at least one key
reached by `put` calls it returns a tree. -/
theorem buildEncodingTree_empty (P : PriorityQueue) (hP : P.Lawful) :
    (∀ M : hashmap, M.keys = [] → buildEncodingTree P M = .error .emptyQueue) ∧
    Fault.emptyQueue.isException = false ∧
    (∀ M : hashmap, Reachable M → M.keys ≠ [] → ∃ T, buildEncodingTree P M = .ok T) := by
  refine ⟨?_, rfl, ?_⟩
  · intro M hM
    have hs : ¬ P.size P.empty > 1 := by
      rw [hP.size_eq, hP.items_empty]; simp
    have h0 : P.size P.empty = 0 := by rw [hP.size_eq, hP.items_empty]; rfl
    have ht : P.top P.empty = none := hP.top_none _ hP.items_empty
    have h1 : ¬ (0 : Nat) > 1 := by decide
    simp only [buildEncodingTree, hM, pushLeaves, h0, mergeLoop, if_neg h1, ht]
  · intro M hr hne
    obtain ⟨T, hT, _⟩ := buildEncodingTree_leaves P hP M (WF_of_reachable M hr) hne
    exact ⟨T, hT⟩

theorem buildEncodingTree_empty_witness :
    (∀ M : hashmap, M.keys = [] → buildEncodingTree listQueue M = .error .emptyQueue) ∧
    Fault.emptyQueue.isException = false ∧
    (∀ M : hashmap, Reachable M → M.keys ≠ [] →
      ∃ T, buildEncodingTree listQueue M = .ok T) :=
  buildEncodingTree_empty listQueue listQueue_lawful

/-! ## `operator>>` on text that is not a header -/

theorem reachable_wideMap : Reachable wideMap :=
  reachable_of_putAll
    [(1, 1073741814), (2, 1073741814), (3, 1073741824), (4, 1073741824), (5, 1073741825),
      (6, 1073741826)] hashmap.ctor wideMap Reachable.ctor (by decide)

set_option maxRecDepth 100000 in
theorem wide_outcomes :
    ∀ T ∈ mergeResults 5 (wideMap.entries.map leafNode),
      (buildEncodingMap T 1).map List.length = some 2 ∧
      (buildEncodingMap T 3).map List.length = some 4 := by
  decide

/-- C5, counterexample: the map `wideMap` holds six keys with counts between 0 and
`2^31 - 1`; key 1 has a smaller count than key 3, and for every priority queue that
obeys the queue laws the tree is built and gives key 1 a code of two bits and key 3 a
code of four bits: the count of the parent of the leaves 3 and 4 wraps to `-2^31`. -/
theorem code_length_monotone_counterexample :
    Reachable wideMap ∧ wideMap.keys ≠ [] ∧
    (∀ e ∈ wideMap.entries, 0 ≤ e.2 ∧ e.2 ≤ 2147483647) ∧
    wideMap.get 1 = .ok 1073741814 ∧ wideMap.get 3 = .ok 1073741824 ∧
    wrapInt32 (1073741824 + 1073741824) = -2147483648 ∧
    ∀ P : PriorityQueue, P.Lawful →
      ∃ T p1 p3, buildEncodingTree P wideMap = .ok T ∧
        buildEncodingMap T 1 = some p1 ∧ buildEncodingMap T 3 = some p3 ∧
        p1.length = 2 ∧ p3.length = 4 := by
  refine ⟨reachable_wideMap, by decide, by decide, by decide, by decide, by decide, ?_⟩
  intro P hP
  obtain ⟨T, hT, hM, _, _⟩ := buildEncodingTree_leaves P hP wideMap
    (WF_of_reachable _ reachable_wideMap) (by decide)
  have hmem := mem_mergeResults hM _ (List.Perm.refl _) 5 (by decide)
  obtain ⟨h1, h3⟩ := wide_outcomes T hmem
  obtain ⟨p1, g1, l1⟩ := Option.map_eq_some'.1 h1
  obtain ⟨p3, g3, l3⟩ := Option.map_eq_some'.1 h3
  exact ⟨T, p1, p3, hT, g1, g3, l1, l3⟩

/-! ## Keys that `put` cannot store -/

/-- No map built by `put` calls holds a key whose bucket index is negative. -/
theorem not_mem_keys_of_invalid (m : hashmap) (hr : Reachable m) (key : Int)
    (hk : ¬ ValidKey key) : key ∉ m.keys := by
  intro h
  rw [keys_eq] at h
  obtain ⟨e, he, hek⟩ := List.mem_map.1 h
  have := valid_of_mem_entries m (WF_of_reachable m hr) e he
  rw [hek] at this
  exact hk this

/-- On a map built by `put` calls, `put` with a key whose bucket index is negative
uses the bucket array outside its bounds. -/
theorem put_of_invalid (m : hashmap) (hr : Reachable m) (key value : Int)
    (hk : ¬ ValidKey key) : m.put key value = .error .badBucket := by
  unfold hashmap.put
  rw [bucket_of_invalid m (WF_of_reachable m hr) key hk]

/-- C2, evaluated at the failing input: the mapping `{1895428345 ↦ 1}` is a frequency
mapping with one integer key and a non-negative count, and its header text is
`{1895428345:1}`.  `operator>>` applied to that text and a freshly constructed map calls
`put(1895428345, 1)`, which uses bucket `-8`, outside the bucket array: no map equal to
the mapping is returned, and no exception is thrown either.  No map built by `put` calls
holds the key, so the mapping cannot be handed to `operator<<` in the first place.  This
is the defect of `hashFunction` shown for C18; the maps that `put` can build are covered
by `header_roundtrip_stored`. -/
theorem header_bad_key :
    ['{'] ++ entriesText [(1895428345, 1)] ++ ['}'] =
      ['{', '1', '8', '9', '5', '4', '2', '8', '3', '4', '5', ':', '1', '}'] ∧
    IsInt32 1895428345 ∧
    operatorGtGt ['{', '1', '8', '9', '5', '4', '2', '8', '3', '4', '5', ':', '1', '}']
      hashmap.ctor = .error .badBucket ∧
    Fault.badBucket.isException = false ∧
    (∀ m : hashmap, Reachable m → (1895428345 : Int) ∉ m.keys) := by
  refine ⟨by decide, by decide, by decide, by decide, ?_⟩
  intro m hr
  exact not_mem_keys_of_invalid m hr 1895428345 (by decide)

/-- C20, evaluated at the failing input: `put(1895428345, 1)` on a freshly constructed
map computes the bucket index `-8` and uses the bucket array outside its bounds, so the
call yields no map state in which `keys()` holds the key and `size()` is 1; the same
happens when the call follows other `put` calls, on every map built by `put` calls, and
for the key `-1895428346`.  This is the defect of `hashFunction` shown for C18; the maps
built by `put` calls that returned are covered by `keys_invariant_stored`. -/
theorem put_bad_key :
    hashmap.ctor.choice 1895428345 = -8 ∧
    hashmap.ctor.put 1895428345 1 = .error .badBucket ∧
    putAll [(97, 2), (1895428345, 1), (98, 3)] hashmap.ctor = .error .badBucket ∧
    Fault.badBucket.isException = false ∧
    (∀ (m : hashmap) (value : Int), Reachable m →
      m.put 1895428345 value = .error .badBucket ∧
      m.put (-1895428346) value = .error .badBucket) := by
  refine ⟨by decide, by decide, by decide, by decide, ?_⟩
  intro m value hr
  exact ⟨put_of_invalid m hr 1895428345 value (by decide),
    put_of_invalid m hr (-1895428346) value (by decide)⟩

end Huffman
